import Mathlib

/-!
Verification of the geoip merge engine (`scripts/merge.py`).

The development shallowly embeds the program's data model and operations:

* `RangeTable` with `add`, `finalize` and the forward-cursor `sweep`
  (lines 41-101 of `merge.py`);
* the observation payloads (`Obs`), the center picker
  `pick_center_coords` (lines 184-224) and the conflict resolver
  `pick_winner` (lines 227-322);
* the coalescing pass of `main` (lines 408-415).

Numeric conventions: IP points are `ℕ`; latitude/longitude strings are
modelled by their numeric values as `ℚ`, and the float arithmetic of
`distance` (line 179-181) is modelled by exact real arithmetic with
`Real.sqrt`.  The Python `while` loop inside `sweep` is modelled with an
explicit fuel argument (`sweepLoop`), the fuel being the table length,
which is an upper bound on the number of iterations.  Python's
`sorted` (a stable sort) is modelled by `List.insertionSort` with a
non-strict comparison, which is also stable.
-/

namespace Geoip

/-! ### Range table (`merge.py` lines 41-101) -/

/-- Model of class `RangeTable`: three parallel lists `starts`, `ends`,
`data` plus the private sweep cursor `_cursor`. -/
structure RangeTable (α : Type) where
  starts : List ℕ
  ends : List ℕ
  data : List α
  cursor : ℕ

/-- Model of `RangeTable.__init__`. -/
def RangeTable.empty (α : Type) : RangeTable α := ⟨[], [], [], 0⟩

/-- Model of `RangeTable.add`: appends one record, no validation. -/
def RangeTable.add (t : RangeTable α) (s e : ℕ) (v : α) : RangeTable α :=
  ⟨t.starts ++ [s], t.ends ++ [e], t.data ++ [v], t.cursor⟩

/-- Lexicographic order on `(start, end, payload)` triples, the order used
by Python's `sorted` on the zipped records in `RangeTable.finalize`. -/
def tripleLe [LinearOrder α] (x y : ℕ × ℕ × α) : Prop :=
  x.1 < y.1 ∨ (x.1 = y.1 ∧ (x.2.1 < y.2.1 ∨ (x.2.1 = y.2.1 ∧ x.2.2 ≤ y.2.2)))

instance [LinearOrder α] : DecidableRel (tripleLe (α := α)) := fun x y => by
  unfold tripleLe; infer_instance

/-- Model of `RangeTable.finalize` (warning counting aside): sort the
zipped `(start, end, data)` records; on an empty `starts` list return the
table unchanged. -/
def RangeTable.finalize [LinearOrder α] (t : RangeTable α) : RangeTable α :=
  if t.starts = [] then t
  else
    let combined := List.insertionSort tripleLe (t.starts.zip (t.ends.zip t.data))
    ⟨combined.map (·.1), combined.map (·.2.1), combined.map (·.2.2), t.cursor⟩

/-- Fuel-indexed model of the cursor-advancing loop of `RangeTable.sweep`:
`while c < n and self.ends[c] <= point: c += 1`.  Fuel `n` always
suffices, since each iteration requires `c < n` and increments `c`. -/
def sweepLoop (ends : List ℕ) (point n : ℕ) : ℕ → ℕ → ℕ
  | 0, c => c
  | fuel + 1, c =>
    if c < n ∧ ends.getD c 0 ≤ point then sweepLoop ends point n fuel (c + 1) else c

/-- Model of `RangeTable.sweep`: advance the cursor past every record
ending at or before `point`, then return the record under the cursor when
it contains `point`. -/
def RangeTable.sweep (t : RangeTable α) (point : ℕ) : Option α × RangeTable α :=
  let n := t.starts.length
  let c := sweepLoop t.ends point n n t.cursor
  if c < n ∧ t.starts.getD c 0 ≤ point then (t.data.get? c, ⟨t.starts, t.ends, t.data, c⟩)
  else (none, ⟨t.starts, t.ends, t.data, c⟩)

/-- Successive `sweep` calls threading the mutated table. -/
def RangeTable.sweepSeq (t : RangeTable α) : List ℕ → List (Option α)
  | [] => []
  | p :: ps =>
    let r := t.sweep p
    r.1 :: r.2.sweepSeq ps

/-- Reference lookup written from the specification's words: the payload
of the first record whose interval `[start, end)` contains `point` (under
pairwise disjointness the containing record is unique). -/
def refIdx (t : RangeTable α) (point : ℕ) : Option ℕ :=
  (List.range t.starts.length).find? fun i =>
    decide (t.starts.getD i 0 ≤ point ∧ point < t.ends.getD i 0)

/-- Reference payload lookup (specification side of claim C1). -/
def refLookup (t : RangeTable α) (point : ℕ) : Option α :=
  (refIdx t point).bind t.data.get?

/-- Pairwise non-overlap of the half-open records `[start_i, end_i)`:
any two distinct records have empty intersection. -/
def RangeTable.PairwiseDisjoint (t : RangeTable α) : Prop :=
  ∀ i < t.starts.length, ∀ j < t.starts.length, i ≠ j →
    min (t.ends.getD i 0) (t.ends.getD j 0) ≤ max (t.starts.getD i 0) (t.starts.getD j 0)

instance (t : RangeTable α) : Decidable t.PairwiseDisjoint := by
  unfold RangeTable.PairwiseDisjoint
  infer_instance

/-! ### Coalescing pass (`merge.py` lines 408-415) -/

/-- Output segment `(start, end, (country, lat, lon))`; `entry[2:]` of the
Python tuple is the value component `.2.2`. -/
abbrev Seg := ℕ × ℕ × (String × ℚ × ℚ)

/-- Inner state of the coalescing loop: `cur` is `merged[-1]`, the last
segment already emitted; a new entry either extends it (identical values
and contiguous ranges) or starts a new output segment. -/
def coalesceGo (cur : Seg) : List Seg → List Seg
  | [] => [cur]
  | e :: rest =>
    if cur.2.2 = e.2.2 ∧ cur.2.1 + 1 = e.1 then coalesceGo (cur.1, e.2.1, e.2.2) rest
    else cur :: coalesceGo e rest

/-- Model of the "merge adjacent segments with identical country/coords"
loop of `main`. -/
def coalesce : List Seg → List Seg
  | [] => []
  | e :: rest => coalesceGo e rest

/-- Points covered by one segment, tagged with its value. -/
def segPoints (s : Seg) : List (ℕ × (String × ℚ × ℚ)) :=
  (List.range' s.1 (s.2.1 + 1 - s.1)).map fun p => (p, s.2.2)

/-- Points covered by a segment list, in order. -/
def allPoints (l : List Seg) : List (ℕ × (String × ℚ × ℚ)) :=
  l.flatMap segPoints

/-! ### Observations and merge configuration (`merge.py` lines 104-176, 340) -/

/-- Payload of one source at one point: country-only loaders produce bare
country strings, latlong loaders produce `(country, lat, lon)` tuples. -/
inductive Obs where
  | countryOnly (c : String)
  | withCoords (c : String) (lat lon : ℚ)
deriving DecidableEq

/-- Reported country of an observation (`data[0]` for tuples, the string
itself otherwise). -/
def Obs.country : Obs → String
  | .countryOnly c => c
  | .withCoords c _ _ => c

/-- Model of Python `isinstance(data, tuple)`. -/
def Obs.isTuple : Obs → Bool
  | .countryOnly _ => false
  | .withCoords _ _ _ => true

/-- Model of Python truthiness of an observation: a 3-tuple is always
truthy; a country string is truthy iff nonempty. -/
def Obs.truthy : Obs → Bool
  | .countryOnly c => !(c == "")
  | .withCoords _ _ _ => true

/-- Latitude/longitude fields `(data[1], data[2])`.  For a bare country
string the Python code would index into the string; that case is
unreachable from `pick_winner` on well-typed tables and is modelled by
the junk value `(0, 0)`. -/
def Obs.latlon : Obs → ℚ × ℚ
  | .countryOnly _ => (0, 0)
  | .withCoords _ la lo => (la, lo)

/-- The `all_data` mapping passed to `pick_winner`: each loaded source
name with its observation at the queried point (`None` when the source
has no coverage there), in the insertion order of the Python dict. -/
abbrev AllData := List (String × Option Obs)

/-- First-match association lookup, modelling Python dict access over the
uniquely-keyed `all_data` / `countries` dicts. -/
def dictGet (l : List (String × β)) (k : String) : Option β :=
  l.findSome? fun p => if p.1 = k then some p.2 else none

/-- Lookup of `all_data.get(name)` flattened to the observation. -/
def lookupData (d : AllData) (n : String) : Option Obs :=
  (dictGet d n).bind id

/-- The `merge` section of the configuration; `none` fields model absent
keys, resolved by `.get(key, default)` in the code. -/
structure MergeConfig where
  coord_priority : Option (List String)
  vote_priority : Option (List String)
  coord_spread_threshold : Option ℚ
  overrides : Option (List (List String))

/-! ### Distance and center picker (`merge.py` lines 179-224) -/

/-- Model of `distance`: planar Euclidean distance,
`((lat1 - lat2)**2 + (lon1 - lon2)**2) ** 0.5`. -/
noncomputable def distance (lat1 lon1 lat2 lon2 : ℚ) : ℝ :=
  Real.sqrt (((lat1 : ℝ) - (lat2 : ℝ)) ^ 2 + ((lon1 : ℝ) - (lon2 : ℝ)) ^ 2)

/-- Distances of every index pair `a < b`, in the enumeration order of the
nested `for` loops computing `max_dist`. -/
noncomputable def pairDists : List (ℚ × ℚ) → List ℝ
  | [] => []
  | a :: rest => (rest.map fun b => distance a.1 a.2 b.1 b.2) ++ pairDists rest

/-- Model of the `max_dist` accumulator (initial value `0`). -/
noncomputable def maxDistOf (coords : List (ℚ × ℚ)) : ℝ :=
  (pairDists coords).foldl max 0

/-- Model of `total` for index `idx`: sum of distances to every other
index. -/
noncomputable def totalDist (coords : List (ℚ × ℚ)) (idx : ℕ) : ℝ :=
  (((List.range coords.length).filter fun j => j ≠ idx).map fun j =>
    distance (coords.getD idx (0, 0)).1 (coords.getD idx (0, 0)).2
      (coords.getD j (0, 0)).1 (coords.getD j (0, 0)).2).sum

/-- One step of the arg-min loop: `min_total` starts at `float('inf')`
(modelled by `none`), `best` starts at `0`, and both are updated on a
strict improvement. -/
noncomputable def minStep (coords : List (ℚ × ℚ)) (mb : Option ℝ × ℕ) (idx : ℕ) :
    Option ℝ × ℕ :=
  match mb.1 with
  | none => (some (totalDist coords idx), idx)
  | some m => if totalDist coords idx < m then (some (totalDist coords idx), idx) else mb

/-- Model of the `best` index after the arg-min loop. -/
noncomputable def bestIdx (coords : List (ℚ × ℚ)) : ℕ :=
  ((List.range coords.length).foldl (minStep coords) (none, 0)).2

/-- Model of `pick_center_coords`.  The empty-list case models the
unguarded `named_ll[0]` read with a junk value; claim C10 shows it is
unreachable from `pick_winner`. -/
noncomputable def pick_center_coords (named_ll : List (String × Obs)) (threshold : ℚ) :
    ℚ × ℚ × String :=
  match named_ll with
  | [] => (0, 0, "")
  | e0 :: _ =>
    if named_ll.length < 3 then (e0.2.latlon.1, e0.2.latlon.2, e0.1)
    else
      let coords := named_ll.map fun nd => nd.2.latlon
      if maxDistOf coords ≤ (threshold : ℝ) then (e0.2.latlon.1, e0.2.latlon.2, e0.1)
      else
        let e := named_ll.getD (bestIdx coords) e0
        (e.2.latlon.1, e.2.latlon.2, e.1)

/-- Guarded variant returning `none` exactly where `pick_center_coords`
would raise `IndexError` on the unguarded `named_ll[0]` read. -/
noncomputable def pick_center_coords? (named_ll : List (String × Obs)) (threshold : ℚ) :
    Option (ℚ × ℚ × String) :=
  match named_ll with
  | [] => none
  | _ :: _ => some (pick_center_coords named_ll threshold)

/-! ### Conflict resolver (`merge.py` lines 227-322) -/

/-- Resolver decision `(country, lat, lon, debug_label)`. -/
abbrev PWResult := String × ℚ × ℚ × String

/-- The `countries` dict: every source with a present observation mapped
to its reported country, in `all_data` iteration order. -/
def countriesOf (d : AllData) : List (String × String) :=
  d.filterMap fun p => p.2.map fun o => (p.1, o.country)

/-- Keys of a `Counter` in first-insertion order, as Python dicts
preserve it. -/
def firstOccs (l : List String) : List String :=
  l.foldl (fun acc c => if c ∈ acc then acc else acc ++ [c]) []

/-- Model of `Counter(...).most_common()`: count pairs sorted by count
descending; the sort is stable, so equal counts keep first-insertion
order, exactly as CPython's stable `sorted(..., reverse=True)`. -/
def mostCommon (l : List String) : List (String × ℕ) :=
  List.insertionSort (fun a b => b.2 ≤ a.2) ((firstOccs l).map fun c => (c, l.count c))

/-- The `coord_sources` list: coordinate-bearing observations walked in
`coord_priority` order, as `(country, lat, lon, name)`. -/
def coordSources (d : AllData) (coord_priority : List String) :
    List (String × ℚ × ℚ × String) :=
  coord_priority.filterMap fun name =>
    match lookupData d name with
    | some (Obs.withCoords c la lo) => some (c, la, lo, name)
    | _ => none

/-- Model of the inner `find_coords`: first coordinate source reporting
exactly `country`. -/
def findCoords (cs : List (String × ℚ × ℚ × String)) (country : String) :
    Option (ℚ × ℚ × String) :=
  cs.findSome? fun e => if e.1 = country then some (e.2.1, e.2.2.1, e.2.2.2) else none

/-- The `available_ll` list: truthy observations of `latlong`-role
sources, walked in `coord_priority` order. -/
def availableLL (d : AllData) (latlong_names coord_priority : List String) :
    List (String × Obs) :=
  coord_priority.filterMap fun name =>
    if latlong_names.contains name then
      match lookupData d name with
      | some o => if o.truthy then some (name, o) else none
      | none => none
    else none

/-- One override rule's `match_countries` collection: `none` as soon as a
listed source has no present observation. -/
def matchCountries (countries : List (String × String)) : List String → Option (List String)
  | [] => some []
  | n :: ns =>
    match dictGet countries n with
    | none => none
    | some c => (matchCountries countries ns).map (c :: ·)

/-- One iteration of the override loop: skip unless every listed source is
present with a single common country and a coordinate source reports that
exact country. -/
def overrideStep (countries : List (String × String))
    (cs : List (String × ℚ × ℚ × String)) (rule : List String) : Option PWResult :=
  match matchCountries countries rule with
  | none => none
  | some mcs =>
    if mcs.dedup.length = 1 then
      (findCoords cs (mcs.headD "")).map fun r =>
        (mcs.headD "", r.1, r.2.1, String.intercalate "+" rule ++ "->" ++ r.2.2)
    else none

/-- The override rules walked in configured order. -/
def runOverrides (countries : List (String × String))
    (cs : List (String × ℚ × ℚ × String)) (rules : List (List String)) : Option PWResult :=
  rules.findSome? (overrideStep countries cs)

/-- One iteration of the vote tie-break loop over `vote_priority`. -/
def tieStep (countries : List (String × String))
    (cs : List (String × ℚ × ℚ × String)) (top : List (String × ℕ))
    (prio_name : String) : Option PWResult :=
  match dictGet countries prio_name with
  | some c =>
    if (c, (top.headD ("", 0)).2) ∈ top then
      (findCoords cs c).map fun r => (c, r.1, r.2.1, "vote->" ++ r.2.2)
    else none
  | none => none

/-- The tie-break stage: only runs when the top two vote counts are equal;
membership of `(c, top[0].2)` in `top` models membership of `c` in the
`tied` set. -/
def tieBreak (vote_priority : List String) (countries : List (String × String))
    (cs : List (String × ℚ × ℚ × String)) (top : List (String × ℕ)) : Option PWResult :=
  if 2 ≤ top.length ∧ (top.headD ("", 0)).2 = (top.getD 1 ("", 0)).2 then
    vote_priority.findSome? (tieStep countries cs top)
  else none

/-- Voting stages of `pick_winner` (lines 297-322): `no_coords` early
return, tie-break, ranked walk, `no_match` fallback. -/
def voteStage (countries : List (String × String)) (all_country_list : List String)
    (cs : List (String × ℚ × ℚ × String)) (vote_priority : List String) : PWResult :=
  if cs = [] then ((mostCommon all_country_list).headD ("", 0) |>.1, 0, 0, "no_coords")
  else
    let top := mostCommon all_country_list
    match tieBreak vote_priority countries cs top with
    | some r => r
    | none =>
      match top.findSome? (fun ce =>
          (findCoords cs ce.1).map fun r => (ce.1, r.1, r.2.1, "vote->" ++ r.2.2)) with
      | some r => r
      | none => ((top.headD ("", 0)).1, 0, 0, "no_match")

/-- Stages of `pick_winner` after the unanimous-coordinate branch:
override rules, then voting. -/
def afterUnanimous (countries : List (String × String)) (all_country_list : List String)
    (cs : List (String × ℚ × ℚ × String)) (merge_config : MergeConfig) : PWResult :=
  match runOverrides countries cs (merge_config.overrides.getD []) with
  | some r => r
  | none => voteStage countries all_country_list cs (merge_config.vote_priority.getD [])

/-- Model of `pick_winner`.  `latlong_names` is the `latlong_names` set in
its (run-dependent) Python iteration order: it is consulted by membership
in `available_ll` and, when `coord_priority` is absent from the
configuration, used wholesale as the default priority list. -/
noncomputable def pick_winner (all_data : AllData) (latlong_names : List String)
    (merge_config : MergeConfig) : Option PWResult :=
  let countries := countriesOf all_data
  if countries = [] then none
  else
    let all_country_list := countries.map (·.2)
    let coord_priority := merge_config.coord_priority.getD latlong_names
    let cs := coordSources all_data coord_priority
    let threshold := merge_config.coord_spread_threshold.getD 2
    let available_ll := availableLL all_data latlong_names coord_priority
    let ll_country_list := available_ll.map fun e => e.2.country
    if 2 ≤ available_ll.length ∧ ll_country_list.dedup.length = 1 then
      let r := pick_center_coords available_ll threshold
      some (ll_country_list.headD "", r.1, r.2.1, "unanimous->" ++ r.2.2)
    else some (afterUnanimous countries all_country_list cs merge_config)

/-- Variant of `pick_winner` with the guarded center picker: the outer
`Option` layer models an uncaught `IndexError` (`none` = crash). -/
noncomputable def pick_winner? (all_data : AllData) (latlong_names : List String)
    (merge_config : MergeConfig) : Option (Option PWResult) :=
  let countries := countriesOf all_data
  if countries = [] then some none
  else
    let all_country_list := countries.map (·.2)
    let coord_priority := merge_config.coord_priority.getD latlong_names
    let cs := coordSources all_data coord_priority
    let threshold := merge_config.coord_spread_threshold.getD 2
    let available_ll := availableLL all_data latlong_names coord_priority
    let ll_country_list := available_ll.map fun e => e.2.country
    if 2 ≤ available_ll.length ∧ ll_country_list.dedup.length = 1 then
      (pick_center_coords? available_ll threshold).map fun r =>
        some (ll_country_list.headD "", r.1, r.2.1, "unanimous->" ++ r.2.2)
    else some (some (afterUnanimous countries all_country_list cs merge_config))

/-- Well-typed inputs: the payload shape of every present observation
matches its source's role, as guaranteed by the loaders (`latlong`
loaders produce tuples, country loaders produce strings). -/
def WellTyped (d : AllData) (latlong_names : List String) : Prop :=
  ∀ p ∈ d, ∀ o, p.2 = some o → o.isTuple = latlong_names.contains p.1

/-! ### Proofs about the coalescing pass (claim C8) -/

theorem allPoints_cons (a : Seg) (l : List Seg) :
    allPoints (a :: l) = segPoints a ++ allPoints l := by
  simp [allPoints]

theorem coalesceGo_head (rest : List Seg) (cur : Seg) :
    ∃ e tail, coalesceGo cur rest = (cur.1, e, cur.2.2) :: tail := by
  induction rest generalizing cur with
  | nil => exact ⟨cur.2.1, [], rfl⟩
  | cons e rest ih =>
    by_cases h : cur.2.2 = e.2.2 ∧ cur.2.1 + 1 = e.1
    · obtain ⟨E, tail, htail⟩ := ih (cur.1, e.2.1, e.2.2)
      exact ⟨E, tail, by rw [coalesceGo, if_pos h, htail, h.1]⟩
    · exact ⟨cur.2.1, coalesceGo e rest, by rw [coalesceGo, if_neg h]⟩

theorem chain'_coalesceGo (rest : List Seg) (cur : Seg) :
    List.Chain' (fun A B => ¬(A.2.2 = B.2.2 ∧ A.2.1 + 1 = B.1)) (coalesceGo cur rest) := by
  induction rest generalizing cur with
  | nil => simp [coalesceGo]
  | cons e rest ih =>
    by_cases h : cur.2.2 = e.2.2 ∧ cur.2.1 + 1 = e.1
    · rw [coalesceGo, if_pos h]; exact ih _
    · rw [coalesceGo, if_neg h]
      obtain ⟨E, tail, htail⟩ := coalesceGo_head rest e
      rw [htail]
      refine List.Chain'.cons ?_ (htail ▸ ih e)
      exact fun hc => h ⟨hc.1, hc.2⟩

theorem points_coalesceGo (rest : List Seg) (cur : Seg) (hcur : cur.1 ≤ cur.2.1)
    (hrest : ∀ s ∈ rest, s.1 ≤ s.2.1) :
    allPoints (coalesceGo cur rest) = segPoints cur ++ allPoints rest := by
  induction rest generalizing cur with
  | nil => simp [coalesceGo, allPoints]
  | cons e rest ih =>
    have he : e.1 ≤ e.2.1 := hrest e (by simp)
    have hrest' : ∀ s ∈ rest, s.1 ≤ s.2.1 := fun s hs => hrest s (by simp [hs])
    by_cases h : cur.2.2 = e.2.2 ∧ cur.2.1 + 1 = e.1
    · rw [coalesceGo, if_pos h]
      have hm : (cur.1 : ℕ) ≤ e.2.1 := by omega
      rw [ih (cur.1, e.2.1, e.2.2) hm hrest', allPoints_cons]
      have hsplit : segPoints (cur.1, e.2.1, e.2.2) = segPoints cur ++ segPoints e := by
        have hv : e.2.2 = cur.2.2 := h.1.symm
        simp only [segPoints, hv, ← List.map_append]
        congr 1
        have := List.range'_append cur.1 (cur.2.1 + 1 - cur.1) (e.2.1 + 1 - e.1) 1
        rw [show cur.1 + 1 * (cur.2.1 + 1 - cur.1) = e.1 by omega] at this
        rw [show e.2.1 + 1 - cur.1 = (e.2.1 + 1 - e.1) + (cur.2.1 + 1 - cur.1) from by omega]
        exact this.symm
      rw [hsplit, List.append_assoc]
    · rw [coalesceGo, if_neg h, allPoints_cons, ih e he hrest', allPoints_cons]

/-- Claim C8: after the coalescing pass the output never contains two
adjacent segments with identical country, latitude and longitude and
contiguous ranges (`A.end + 1 = B.start`); moreover the pass only
combines segments, preserving the covered points with their values. -/
theorem coalesce_no_adjacent_mergeable (l : List Seg)
    (hwf : ∀ s ∈ l, s.1 ≤ s.2.1) :
    List.Chain'
      (fun A B => ¬(A.2.2.1 = B.2.2.1 ∧ A.2.2.2.1 = B.2.2.2.1 ∧
        A.2.2.2.2 = B.2.2.2.2 ∧ A.2.1 + 1 = B.1)) (coalesce l) ∧
    allPoints (coalesce l) = allPoints l := by
  cases l with
  | nil => simp [coalesce, allPoints]
  | cons e rest =>
    constructor
    · have h := chain'_coalesceGo rest e
      rw [coalesce]
      refine h.imp ?_
      intro A B hAB hc
      exact hAB ⟨Prod.ext hc.1 (Prod.ext hc.2.1 hc.2.2.1), hc.2.2.2⟩
    · rw [coalesce, points_coalesceGo rest e (hwf e (by simp))
        (fun s hs => hwf s (by simp [hs])), allPoints_cons]

/-- Witness for claim C8 at a concrete segment list: two mergeable
segments followed by a differing one. -/
theorem coalesce_no_adjacent_mergeable_witness :
    (∀ s ∈ [((0 : ℕ), (1 : ℕ), ("US", (7 : ℚ), (8 : ℚ))), (2, 3, ("US", 7, 8)),
        (4, 5, ("DE", 1, 2))], s.1 ≤ s.2.1) ∧
    (List.Chain'
      (fun A B => ¬(A.2.2.1 = B.2.2.1 ∧ A.2.2.2.1 = B.2.2.2.1 ∧
        A.2.2.2.2 = B.2.2.2.2 ∧ A.2.1 + 1 = B.1))
      (coalesce [(0, 1, ("US", 7, 8)), (2, 3, ("US", 7, 8)), (4, 5, ("DE", 1, 2))]) ∧
    allPoints (coalesce [(0, 1, ("US", 7, 8)), (2, 3, ("US", 7, 8)), (4, 5, ("DE", 1, 2))]) =
      allPoints [(0, 1, ("US", 7, 8)), (2, 3, ("US", 7, 8)), (4, 5, ("DE", 1, 2))]) :=
  ⟨by decide, coalesce_no_adjacent_mergeable _ (by decide)⟩

/-! ### Proofs about the range table (claim C1) -/

theorem sweepLoop_ge (ends : List ℕ) (point n : ℕ) :
    ∀ fuel c, c ≤ sweepLoop ends point n fuel c := by
  intro fuel
  induction fuel with
  | zero => intro c; simp [sweepLoop]
  | succ fuel ih =>
    intro c
    rw [sweepLoop]
    split
    · exact le_trans (Nat.le_succ c) (ih (c + 1))
    · exact le_refl c

theorem sweepLoop_le (ends : List ℕ) (point n : ℕ) :
    ∀ fuel c, c ≤ n → sweepLoop ends point n fuel c ≤ n := by
  intro fuel
  induction fuel with
  | zero => intro c hc; simpa [sweepLoop] using hc
  | succ fuel ih =>
    intro c hc
    rw [sweepLoop]
    split
    · next h => exact ih (c + 1) h.1
    · exact hc

theorem sweepLoop_passed (ends : List ℕ) (point n : ℕ) :
    ∀ fuel c j, c ≤ j → j < sweepLoop ends point n fuel c → ends.getD j 0 ≤ point := by
  intro fuel
  induction fuel with
  | zero => intro c j hcj hj; rw [sweepLoop] at hj; omega
  | succ fuel ih =>
    intro c j hcj hj
    rw [sweepLoop] at hj
    split at hj
    · next h =>
      rcases Nat.eq_or_lt_of_le hcj with heq | hlt
      · exact heq ▸ h.2
      · exact ih (c + 1) j hlt hj
    · omega

theorem sweepLoop_stop (ends : List ℕ) (point n : ℕ) :
    ∀ fuel c, n - c ≤ fuel →
      ¬(sweepLoop ends point n fuel c < n ∧
        ends.getD (sweepLoop ends point n fuel c) 0 ≤ point) := by
  intro fuel
  induction fuel with
  | zero =>
    intro c hc
    rw [sweepLoop]
    omega
  | succ fuel ih =>
    intro c hc
    rw [sweepLoop]
    split
    · next h => exact ih (c + 1) (by omega)
    · next h => exact h

theorem find?_range'_eq_some {f : ℕ → Bool} :
    ∀ (len s i : ℕ), s ≤ i → i < s + len → f i = true →
      (∀ j, s ≤ j → j < i → f j = false) → (List.range' s len).find? f = some i := by
  intro len
  induction len with
  | zero => intro s i h1 h2; omega
  | succ len ih =>
    intro s i h1 h2 hfi hbefore
    rw [List.range'_succ]
    rcases Nat.eq_or_lt_of_le h1 with heq | hlt
    · rw [List.find?_cons_of_pos _ (heq ▸ hfi), heq]
    · rw [List.find?_cons_of_neg _ (by simp [hbefore s (le_refl s) hlt])]
      exact ih (s + 1) i hlt (by omega) hfi fun j hj hji => hbefore j (by omega) hji

theorem find?_range_eq_some {f : ℕ → Bool} {n i : ℕ} (hi : i < n) (hfi : f i = true)
    (hbefore : ∀ j < i, f j = false) : (List.range n).find? f = some i := by
  rw [List.range_eq_range']
  exact find?_range'_eq_some n 0 i (Nat.zero_le i) (by omega) hfi fun j _ hj => hbefore j hj

theorem sorted_getD_mono {l : List ℕ} (hl : l.Sorted (· ≤ ·)) {i j : ℕ} (hij : i ≤ j)
    (hj : j < l.length) : l.getD i 0 ≤ l.getD j 0 := by
  rcases Nat.eq_or_lt_of_le hij with heq | hlt
  · exact heq ▸ le_refl _
  · have hi : i < l.length := lt_trans hlt hj
    rw [List.getD_eq_getElem l 0 hi, List.getD_eq_getElem l 0 hj]
    exact List.pairwise_iff_get.mp hl ⟨i, hi⟩ ⟨j, hj⟩ hlt

theorem sweep_step (t : RangeTable α) (point : ℕ)
    (hsorted : t.starts.Sorted (· ≤ ·))
    (hcur : t.cursor ≤ t.starts.length)
    (hinv : ∀ j < t.cursor, t.ends.getD j 0 ≤ point) :
    (t.sweep point).1 = refLookup t point ∧
    (t.sweep point).2.starts = t.starts ∧ (t.sweep point).2.ends = t.ends ∧
    (t.sweep point).2.data = t.data ∧ (t.sweep point).2.cursor ≤ t.starts.length ∧
    (∀ j < (t.sweep point).2.cursor, t.ends.getD j 0 ≤ point) := by
  have hn : t.starts.length - t.cursor ≤ t.starts.length := Nat.sub_le _ _
  set n := t.starts.length with hn_def
  set c := sweepLoop t.ends point n n t.cursor with hc_def
  have hcle : c ≤ n := sweepLoop_le t.ends point n n t.cursor hcur
  have hpass : ∀ j < c, t.ends.getD j 0 ≤ point := by
    intro j hj
    rcases Nat.lt_or_ge j t.cursor with hlt | hge
    · exact hinv j hlt
    · exact sweepLoop_passed t.ends point n n t.cursor j hge hj
  have hstop := sweepLoop_stop t.ends point n n t.cursor hn
  rw [← hc_def] at hstop
  have hsweep : t.sweep point =
      if c < n ∧ t.starts.getD c 0 ≤ point then (t.data.get? c, ⟨t.starts, t.ends, t.data, c⟩)
      else (none, ⟨t.starts, t.ends, t.data, c⟩) := rfl
  by_cases hhit : c < n ∧ t.starts.getD c 0 ≤ point
  · rw [hsweep, if_pos hhit]
    have hcontains : point < t.ends.getD c 0 := by
      by_contra hcon
      exact hstop ⟨hhit.1, by omega⟩
    have href : refIdx t point = some c := by
      apply find?_range_eq_some hhit.1
      · simp only [decide_eq_true_eq]
        exact ⟨hhit.2, hcontains⟩
      · intro j hj
        simp only [decide_eq_false_iff_not]
        intro hcon
        exact absurd hcon.2 (by have := hpass j hj; omega)
    refine ⟨?_, rfl, rfl, rfl, hcle, hpass⟩
    rw [refLookup, href]
    rfl
  · rw [hsweep, if_neg hhit]
    have href : refIdx t point = none := by
      rw [refIdx, List.find?_eq_none]
      intro i hi
      rw [List.mem_range] at hi
      simp only [decide_eq_true_eq]
      intro hcon
      rcases Nat.lt_or_ge i c with hlt | hge
      · exact absurd hcon.2 (by have := hpass i hlt; omega)
      · rcases Nat.lt_or_ge c n with hcn | hcn
        · have hmono := sorted_getD_mono hsorted hge hi
          have : t.starts.getD c 0 ≤ point := le_trans hmono hcon.1
          exact hhit ⟨hcn, this⟩
        · omega
    refine ⟨?_, rfl, rfl, rfl, hcle, hpass⟩
    rw [refLookup, href]
    rfl

theorem refLookup_fields_congr (t u : RangeTable α) (hs : u.starts = t.starts)
    (he : u.ends = t.ends) (hd : u.data = t.data) : refLookup u = refLookup t := by
  funext p
  rw [refLookup, refLookup, refIdx, refIdx, hs, he, hd]

theorem sweepSeq_correct (t : RangeTable α) (pts : List ℕ)
    (hsorted : t.starts.Sorted (· ≤ ·))
    (hpts : pts.Sorted (· ≤ ·))
    (hcur : t.cursor ≤ t.starts.length)
    (hinv : ∀ j < t.cursor, ∀ q ∈ pts, t.ends.getD j 0 ≤ q) :
    t.sweepSeq pts = pts.map (refLookup t) := by
  induction pts generalizing t with
  | nil => rfl
  | cons p ps ih =>
    rw [List.sorted_cons] at hpts
    obtain ⟨hstep, hs, he, hd, hcle, hinv'⟩ :=
      sweep_step t p hsorted hcur fun j hj => hinv j hj p (by simp)
    rw [RangeTable.sweepSeq, List.map_cons, hstep]
    have htail : (t.sweep p).2.sweepSeq ps = ps.map (refLookup (t.sweep p).2) := by
      apply ih
      · rw [hs]; exact hsorted
      · exact hpts.2
      · rw [hs]; exact hcle
      · intro j hj q hq
        rw [he]
        exact le_trans (hinv' j hj) (hpts.1 q hq)
    rw [htail, refLookup_fields_congr t (t.sweep p).2 hs he hd]

instance [LinearOrder α] : IsTotal (ℕ × ℕ × α) tripleLe := by
  constructor
  intro x y
  unfold tripleLe
  rcases lt_trichotomy x.1 y.1 with h | h | h
  · exact Or.inl (Or.inl h)
  · rcases lt_trichotomy x.2.1 y.2.1 with h2 | h2 | h2
    · exact Or.inl (Or.inr ⟨h, Or.inl h2⟩)
    · rcases le_total x.2.2 y.2.2 with h3 | h3
      · exact Or.inl (Or.inr ⟨h, Or.inr ⟨h2, h3⟩⟩)
      · exact Or.inr (Or.inr ⟨h.symm, Or.inr ⟨h2.symm, h3⟩⟩)
    · exact Or.inr (Or.inr ⟨h.symm, Or.inl h2⟩)
  · exact Or.inr (Or.inl h)

instance [LinearOrder α] : IsTrans (ℕ × ℕ × α) tripleLe := by
  constructor
  intro x y z hxy hyz
  unfold tripleLe at hxy hyz ⊢
  rcases hxy with h1 | ⟨h1, h1'⟩
  · rcases hyz with h2 | ⟨h2, _⟩
    · exact Or.inl (lt_trans h1 h2)
    · exact Or.inl (h2 ▸ h1)
  · rcases hyz with h2 | ⟨h2, h2'⟩
    · exact Or.inl (h1 ▸ h2)
    · refine Or.inr ⟨h1.trans h2, ?_⟩
      rcases h1' with h3 | ⟨h3, h3'⟩
      · rcases h2' with h4 | ⟨h4, _⟩
        · exact Or.inl (lt_trans h3 h4)
        · exact Or.inl (h4 ▸ h3)
      · rcases h2' with h4 | ⟨h4, h4'⟩
        · exact Or.inl (h3 ▸ h4)
        · exact Or.inr ⟨h3.trans h4, h3'.trans h4'⟩

theorem finalize_starts_sorted [LinearOrder α] (t : RangeTable α) :
    (t.finalize).starts.Sorted (· ≤ ·) := by
  rw [RangeTable.finalize]
  split
  · next h => rw [h]; exact List.sorted_nil
  · have hsorted := List.sorted_insertionSort tripleLe (t.starts.zip (t.ends.zip t.data))
    refine List.Pairwise.map (·.1) (fun a b hab => ?_) hsorted
    rcases hab with h | ⟨h, _⟩
    · exact le_of_lt h
    · exact le_of_eq h

theorem finalize_cursor [LinearOrder α] (t : RangeTable α) :
    (t.finalize).cursor = t.cursor := by
  rw [RangeTable.finalize]
  split <;> rfl

/-- Claim C1: on a finalized table with pairwise non-overlapping records,
a sequence of `sweep` calls at non-decreasing points returns, for each
point, the payload of the record containing it (`refLookup`), or `none`
when no record contains it; under disjointness the containing record is
unique. -/
theorem finalize_sweep_sequential [LinearOrder α] (t0 : RangeTable α)
    (h0 : t0.cursor = 0) (hdisj : (t0.finalize).PairwiseDisjoint)
    (pts : List ℕ) (hpts : pts.Sorted (· ≤ ·)) :
    (t0.finalize).sweepSeq pts = pts.map (refLookup t0.finalize) ∧
    (∀ p : ℕ, ∀ i < (t0.finalize).starts.length, ∀ j < (t0.finalize).starts.length,
      ((t0.finalize).starts.getD i 0 ≤ p ∧ p < (t0.finalize).ends.getD i 0) →
      ((t0.finalize).starts.getD j 0 ≤ p ∧ p < (t0.finalize).ends.getD j 0) → i = j) := by
  constructor
  · apply sweepSeq_correct _ _ (finalize_starts_sorted t0) hpts
    · rw [finalize_cursor, h0]; exact Nat.zero_le _
    · rw [finalize_cursor, h0]; omega
  · intro p i hi j hj hci hcj
    by_contra hne
    have := hdisj i hi j hj hne
    omega

/-- Witness for claim C1: a concrete two-record table built with `add`,
finalized, swept at an ascending point list. -/
theorem finalize_sweep_sequential_witness :
    ((((RangeTable.empty ℕ).add 5 8 10).add 1 3 20).cursor = 0 ∧
      ((((RangeTable.empty ℕ).add 5 8 10).add 1 3 20).finalize).PairwiseDisjoint ∧
      ([0, 1, 2, 3, 5, 7, 8] : List ℕ).Sorted (· ≤ ·)) ∧
    (((((RangeTable.empty ℕ).add 5 8 10).add 1 3 20).finalize).sweepSeq [0, 1, 2, 3, 5, 7, 8] =
      ([0, 1, 2, 3, 5, 7, 8] : List ℕ).map
        (refLookup ((((RangeTable.empty ℕ).add 5 8 10).add 1 3 20).finalize)) ∧
     (∀ p : ℕ, ∀ i < (((((RangeTable.empty ℕ).add 5 8 10).add 1 3 20).finalize)).starts.length,
        ∀ j < (((((RangeTable.empty ℕ).add 5 8 10).add 1 3 20).finalize)).starts.length,
        (((((RangeTable.empty ℕ).add 5 8 10).add 1 3 20).finalize).starts.getD i 0 ≤ p ∧
          p < ((((RangeTable.empty ℕ).add 5 8 10).add 1 3 20).finalize).ends.getD i 0) →
        (((((RangeTable.empty ℕ).add 5 8 10).add 1 3 20).finalize).starts.getD j 0 ≤ p ∧
          p < ((((RangeTable.empty ℕ).add 5 8 10).add 1 3 20).finalize).ends.getD j 0) →
        i = j)) :=
  ⟨⟨rfl, by decide, by decide⟩,
    finalize_sweep_sequential _ rfl (by decide) _ (by decide)⟩

/-! ### Proofs about the center picker (claim C6) -/

theorem distance_self (a b : ℚ) : distance a b a b = 0 := by
  simp [distance]

theorem distance_comm (a b c d : ℚ) : distance a b c d = distance c d a b := by
  unfold distance
  congr 1
  ring

theorem foldl_max_le_iff (l : List ℝ) (a x : ℝ) :
    l.foldl max a ≤ x ↔ a ≤ x ∧ ∀ d ∈ l, d ≤ x := by
  induction l generalizing a with
  | nil => simp
  | cons b l ih =>
    rw [List.foldl_cons, ih]
    constructor
    · rintro ⟨hab, hl⟩
      rw [max_le_iff] at hab
      exact ⟨hab.1, fun d hd => by
        rcases List.mem_cons.mp hd with h | h
        · exact h ▸ hab.2
        · exact hl d h⟩
    · rintro ⟨ha, hl⟩
      exact ⟨max_le ha (hl b (by simp)), fun d hd => hl d (by simp [hd])⟩

theorem le_foldl_max : ∀ (l : List ℝ) (a d : ℝ), d ∈ l → d ≤ l.foldl max a := by
  intro l
  induction l with
  | nil => intro a d hd; cases hd
  | cons b l ih =>
    intro a d hd
    rw [List.foldl_cons]
    rcases List.mem_cons.mp hd with h | h
    · subst h
      have hle := ((foldl_max_le_iff l (max a d) (l.foldl max (max a d))).mp (le_refl _)).1
      exact le_trans (le_max_right a d) hle
    · exact ih (max a b) d h

theorem maxDistOf_nonneg (coords : List (ℚ × ℚ)) : 0 ≤ maxDistOf coords :=
  ((foldl_max_le_iff (pairDists coords) 0 (maxDistOf coords)).mp (le_refl _)).1

theorem mem_pairDists {coords : List (ℚ × ℚ)} {d : ℝ} (hd : d ∈ pairDists coords) :
    ∃ p ∈ coords, ∃ q ∈ coords, d = distance p.1 p.2 q.1 q.2 := by
  induction coords with
  | nil => cases hd
  | cons a rest ih =>
    rw [pairDists, List.mem_append] at hd
    rcases hd with h | h
    · obtain ⟨b, hb, hdb⟩ := List.mem_map.mp h
      exact ⟨a, by simp, b, by simp [hb], hdb.symm⟩
    · obtain ⟨p, hp, q, hq, h⟩ := ih h
      exact ⟨p, by simp [hp], q, by simp [hq], h⟩

theorem pair_mem_pairDists {coords : List (ℚ × ℚ)} {p q : ℚ × ℚ} (hp : p ∈ coords)
    (hq : q ∈ coords) (hne : p ≠ q) : distance p.1 p.2 q.1 q.2 ∈ pairDists coords := by
  induction coords with
  | nil => cases hp
  | cons a rest ih =>
    rw [pairDists, List.mem_append]
    rcases List.mem_cons.mp hp with hpa | hpr
    · have hqr : q ∈ rest := by
        rcases List.mem_cons.mp hq with hqa | h
        · exact absurd (hpa.trans hqa.symm) hne
        · exact h
      exact Or.inl (hpa ▸ List.mem_map.mpr ⟨q, hqr, rfl⟩)
    · rcases List.mem_cons.mp hq with hqa | hqr
      · refine Or.inl ?_
        rw [distance_comm, hqa]
        exact List.mem_map.mpr ⟨p, hpr, rfl⟩
      · exact Or.inr (ih hpr hqr)

theorem foldl_minStep_spec (coords : List (ℚ × ℚ)) :
    ∀ (L : List ℕ) (m : ℝ) (b : ℕ),
      ∃ m', L.foldl (minStep coords) (some m, b) =
          (some m', (L.foldl (minStep coords) (some m, b)).2) ∧
        m' ≤ m ∧ (∀ j ∈ L, m' ≤ totalDist coords j) ∧
        ((L.foldl (minStep coords) (some m, b)).2 = b ∧ m' = m ∨
          m' = totalDist coords (L.foldl (minStep coords) (some m, b)).2) ∧
        ((L.foldl (minStep coords) (some m, b)).2 = b ∨
          (L.foldl (minStep coords) (some m, b)).2 ∈ L) := by
  intro L
  induction L with
  | nil => exact fun m b => ⟨m, rfl, le_refl m, by simp, Or.inl ⟨rfl, rfl⟩, Or.inl rfl⟩
  | cons idx L ih =>
    intro m b
    rw [List.foldl_cons]
    by_cases h : totalDist coords idx < m
    · have hstep : minStep coords (some m, b) idx = (some (totalDist coords idx), idx) := by
        rw [minStep]
        simp [h]
      rw [hstep]
      obtain ⟨m', heq, hle, hall, hdisj, hmem⟩ := ih (totalDist coords idx) idx
      refine ⟨m', heq, le_trans hle (le_of_lt h), ?_, ?_, ?_⟩
      · intro j hj
        rcases List.mem_cons.mp hj with hji | hjL
        · exact hji ▸ hle
        · exact hall j hjL
      · rcases hdisj with ⟨h2, h3⟩ | h2
        · exact Or.inr (by rw [h2, h3])
        · exact Or.inr h2
      · rcases hmem with h2 | h2
        · exact Or.inr (by simp [h2])
        · exact Or.inr (by simp [h2])
    · have hstep : minStep coords (some m, b) idx = (some m, b) := by
        rw [minStep]
        simp [h]
      rw [hstep]
      obtain ⟨m', heq, hle, hall, hdisj, hmem⟩ := ih m b
      refine ⟨m', heq, hle, ?_, hdisj, ?_⟩
      · intro j hj
        rcases List.mem_cons.mp hj with hji | hjL
        · exact hji ▸ le_trans hle (not_lt.mp h)
        · exact hall j hjL
      · rcases hmem with h2 | h2
        · exact Or.inl h2
        · exact Or.inr (by simp [h2])

theorem bestIdx_spec (coords : List (ℚ × ℚ)) (hne : coords ≠ []) :
    bestIdx coords < coords.length ∧
    ∀ j < coords.length, totalDist coords (bestIdx coords) ≤ totalDist coords j := by
  obtain ⟨k, hk⟩ : ∃ k, coords.length = k + 1 := by
    cases hl : coords.length with
    | zero => exact absurd (List.length_eq_zero.mp hl) hne
    | succ k => exact ⟨k, rfl⟩
  have hrange : List.range coords.length = 0 :: (List.range k).map Nat.succ := by
    rw [hk, List.range_succ_eq_map]
  have hfirst : minStep coords (none, 0) 0 = (some (totalDist coords 0), 0) := rfl
  rw [bestIdx, hrange, List.foldl_cons, hfirst]
  obtain ⟨m', heq, hle, hall, hdisj, hmem⟩ :=
    foldl_minStep_spec coords ((List.range k).map Nat.succ) (totalDist coords 0) 0
  set r := ((List.range k).map Nat.succ).foldl (minStep coords) (some (totalDist coords 0), 0)
    with hr
  have hbound : r.2 < coords.length := by
    rcases hmem with h | h
    · rw [h, hk]; omega
    · obtain ⟨i, hi, hisucc⟩ := List.mem_map.mp h
      rw [List.mem_range] at hi
      rw [← hisucc, hk]
      omega
  have hmin : ∀ j < coords.length, totalDist coords r.2 ≤ totalDist coords j := by
    have hrval : totalDist coords r.2 = m' := by
      rcases hdisj with ⟨h2, h3⟩ | h2
      · rw [h2, h3]
      · rw [h2]
    intro j hj
    rw [hrval]
    cases j with
    | zero => exact hle
    | succ i =>
      apply hall
      exact List.mem_map.mpr ⟨i, List.mem_range.mpr (by omega), rfl⟩
  exact ⟨hbound, hmin⟩

set_option maxHeartbeats 1600000 in
/-- Claim C6: with fewer than 3 entries `pick_center_coords` returns the
first entry's coordinates; with 3 or more entries it returns the first
entry's coordinates when every pairwise planar distance is at most the
threshold, and otherwise the coordinates of an entry minimizing the total
distance to all other entries. -/
theorem pick_center_coords_cases (named_ll : List (String × Obs)) (threshold : ℚ)
    (hne : named_ll ≠ []) :
    (named_ll.length < 3 →
      pick_center_coords named_ll threshold =
        ((named_ll.headD ("", Obs.countryOnly "")).2.latlon.1,
          (named_ll.headD ("", Obs.countryOnly "")).2.latlon.2,
          (named_ll.headD ("", Obs.countryOnly "")).1)) ∧
    (3 ≤ named_ll.length →
      (∀ p ∈ named_ll.map fun nd => nd.2.latlon, ∀ q ∈ named_ll.map fun nd => nd.2.latlon,
        distance p.1 p.2 q.1 q.2 ≤ (threshold : ℝ)) →
      pick_center_coords named_ll threshold =
        ((named_ll.headD ("", Obs.countryOnly "")).2.latlon.1,
          (named_ll.headD ("", Obs.countryOnly "")).2.latlon.2,
          (named_ll.headD ("", Obs.countryOnly "")).1)) ∧
    (3 ≤ named_ll.length →
      (∃ p ∈ named_ll.map fun nd => nd.2.latlon, ∃ q ∈ named_ll.map fun nd => nd.2.latlon,
        (threshold : ℝ) < distance p.1 p.2 q.1 q.2) →
      ∃ i < named_ll.length,
        pick_center_coords named_ll threshold =
          ((named_ll.getD i ("", Obs.countryOnly "")).2.latlon.1,
            (named_ll.getD i ("", Obs.countryOnly "")).2.latlon.2,
            (named_ll.getD i ("", Obs.countryOnly "")).1) ∧
        ∀ j < named_ll.length,
          totalDist (named_ll.map fun nd => nd.2.latlon) i ≤
            totalDist (named_ll.map fun nd => nd.2.latlon) j) := by
  obtain ⟨e0, rest, rfl⟩ : ∃ e0 rest, named_ll = e0 :: rest := by
    cases named_ll with
    | nil => exact absurd rfl hne
    | cons e0 rest => exact ⟨e0, rest, rfl⟩
  have hlen' : (e0 :: rest).length = rest.length + 1 := List.length_cons e0 rest
  have hlenmap : ((e0 :: rest).map fun nd => nd.2.latlon).length = (e0 :: rest).length :=
    List.length_map _ _
  refine ⟨fun hlen => ?_, fun hlen hall => ?_, fun hlen hfar => ?_⟩
  · rw [pick_center_coords, if_pos hlen]
    rfl
  · have hmax : maxDistOf ((e0 :: rest).map fun nd => nd.2.latlon) ≤ (threshold : ℝ) := by
      rw [maxDistOf, foldl_max_le_iff]
      constructor
      · have h0 : e0.2.latlon ∈ (e0 :: rest).map fun nd => nd.2.latlon :=
          List.mem_map_of_mem _ (List.mem_cons_self e0 rest)
        have := hall e0.2.latlon h0 e0.2.latlon h0
        rwa [distance_self] at this
      · intro d hd
        obtain ⟨p, hp, q, hq, hdpq⟩ := mem_pairDists hd
        exact hdpq ▸ hall p hp q hq
    rw [pick_center_coords, if_neg (by omega), if_pos hmax]
    rfl
  · have hmax : ¬(maxDistOf ((e0 :: rest).map fun nd => nd.2.latlon) ≤ (threshold : ℝ)) := by
      obtain ⟨p, hp, q, hq, hpq⟩ := hfar
      rw [not_le]
      by_cases hpqeq : p = q
      · subst hpqeq
        rw [distance_self] at hpq
        exact lt_of_lt_of_le hpq (maxDistOf_nonneg _)
      · exact lt_of_lt_of_le hpq (le_foldl_max _ _ _ (pair_mem_pairDists hp hq hpqeq))
    obtain ⟨hbound, hmin⟩ := bestIdx_spec ((e0 :: rest).map fun nd => nd.2.latlon) (by simp)
    refine ⟨bestIdx ((e0 :: rest).map fun nd => nd.2.latlon), ?_, ?_, ?_⟩
    · rw [← hlenmap]; exact hbound
    · rw [pick_center_coords, if_neg (by omega), if_neg hmax]
      have hb : bestIdx ((e0 :: rest).map fun nd => nd.2.latlon) < (e0 :: rest).length := by
        rw [← hlenmap]; exact hbound
      have hgetD : (e0 :: rest).getD (bestIdx ((e0 :: rest).map fun nd => nd.2.latlon)) e0 =
          (e0 :: rest).getD (bestIdx ((e0 :: rest).map fun nd => nd.2.latlon))
            ("", Obs.countryOnly "") := by
        rw [List.getD_eq_getElem (e0 :: rest) e0 hb,
          List.getD_eq_getElem (e0 :: rest) _ hb]
      rw [← hgetD]
    · intro j hj
      exact hmin j (by rw [hlenmap]; exact hj)

/-- Witness for claim C6 at a concrete singleton list. -/
theorem pick_center_coords_cases_witness :
    ([(("A", Obs.withCoords "US" 1 2))] : List (String × Obs)) ≠ [] ∧
    (([(("A", Obs.withCoords "US" 1 2))] : List (String × Obs)).length < 3 →
      pick_center_coords [("A", Obs.withCoords "US" 1 2)] 2 =
        ((([("A", Obs.withCoords "US" 1 2)]).headD ("", Obs.countryOnly "")).2.latlon.1,
          (([("A", Obs.withCoords "US" 1 2)]).headD ("", Obs.countryOnly "")).2.latlon.2,
          (([("A", Obs.withCoords "US" 1 2)]).headD ("", Obs.countryOnly "")).1)) := by
  have h := pick_center_coords_cases [("A", Obs.withCoords "US" 1 2)] 2 (by simp)
  exact ⟨by simp, h.1⟩

/-! ### Basic lemmas about the resolver's building blocks -/

theorem dictGet_cons (p : String × β) (l : List (String × β)) (k : String) :
    dictGet (p :: l) k = if p.1 = k then some p.2 else dictGet l k := by
  unfold dictGet
  rw [List.findSome?_cons]
  by_cases h : p.1 = k
  · simp [h]
  · simp [h]

theorem dictGet_mem {l : List (String × β)} {k : String} {v : β}
    (h : dictGet l k = some v) : (k, v) ∈ l := by
  induction l with
  | nil => cases h
  | cons p rest ih =>
    rw [dictGet_cons] at h
    split at h
    · next heq =>
      obtain rfl : p.2 = v := by injection h
      exact heq ▸ List.mem_cons_self p rest
    · exact List.mem_cons_of_mem p (ih h)

theorem lookupData_mem {d : AllData} {n : String} {o : Obs}
    (h : lookupData d n = some o) : (n, some o) ∈ d := by
  have hd : dictGet d n = some (some o) := by
    unfold lookupData at h
    cases hg : dictGet d n with
    | none => rw [hg] at h; cases h
    | some x =>
      rw [hg] at h
      cases x with
      | none => cases h
      | some y => obtain rfl : y = o := by injection h
                  rfl
  exact dictGet_mem hd

theorem mem_availableLL {d : AllData} {lln cp : List String} {e : String × Obs}
    (h : e ∈ availableLL d lln cp) :
    e.1 ∈ cp ∧ lln.contains e.1 = true ∧ lookupData d e.1 = some e.2 ∧ e.2.truthy = true := by
  obtain ⟨name, hname, hf⟩ := List.mem_filterMap.mp h
  by_cases hc : lln.contains name
  · rw [if_pos hc] at hf
    cases hl : lookupData d name with
    | none => rw [hl] at hf; cases hf
    | some o =>
      rw [hl] at hf
      dsimp only at hf
      by_cases ht : o.truthy
      · rw [if_pos ht] at hf
        obtain rfl : (name, o) = e := by injection hf
        exact ⟨hname, hc, hl, ht⟩
      · rw [if_neg ht] at hf; cases hf
  · rw [if_neg hc] at hf; cases hf

theorem mem_coordSources {d : AllData} {cp : List String} {e : String × ℚ × ℚ × String}
    (h : e ∈ coordSources d cp) :
    e.2.2.2 ∈ cp ∧ lookupData d e.2.2.2 = some (Obs.withCoords e.1 e.2.1 e.2.2.1) := by
  obtain ⟨name, hname, hf⟩ := List.mem_filterMap.mp h
  cases hl : lookupData d name with
  | none => rw [hl] at hf; cases hf
  | some o =>
    cases o with
    | countryOnly c => rw [hl] at hf; cases hf
    | withCoords c la lo =>
      rw [hl] at hf
      obtain rfl : ((c, la, lo, name) : String × ℚ × ℚ × String) = e := by injection hf
      exact ⟨hname, hl⟩

theorem countriesOf_mem_of_lookup {d : AllData} {n : String} {o : Obs}
    (h : lookupData d n = some o) : (n, o.country) ∈ countriesOf d := by
  have hmem := lookupData_mem h
  exact List.mem_filterMap.mpr ⟨(n, some o), hmem, rfl⟩

/-! ### Staging lemmas for `pick_winner` -/

theorem pick_winner_eq_none (d : AllData) (lln : List String) (cfg : MergeConfig)
    (h : countriesOf d = []) : pick_winner d lln cfg = none := by
  simp [pick_winner, h]

theorem pick_winner_eq_unanimous (d : AllData) (lln : List String) (cfg : MergeConfig)
    (h : countriesOf d ≠ [])
    (hg : 2 ≤ (availableLL d lln (cfg.coord_priority.getD lln)).length ∧
      ((availableLL d lln (cfg.coord_priority.getD lln)).map fun e => e.2.country).dedup.length
        = 1) :
    pick_winner d lln cfg = some
      (((availableLL d lln (cfg.coord_priority.getD lln)).map fun e => e.2.country).headD "",
        (pick_center_coords (availableLL d lln (cfg.coord_priority.getD lln))
          (cfg.coord_spread_threshold.getD 2)).1,
        (pick_center_coords (availableLL d lln (cfg.coord_priority.getD lln))
          (cfg.coord_spread_threshold.getD 2)).2.1,
        "unanimous->" ++
          (pick_center_coords (availableLL d lln (cfg.coord_priority.getD lln))
            (cfg.coord_spread_threshold.getD 2)).2.2) := by
  rw [pick_winner]
  simp only [if_neg h, if_pos hg]

theorem pick_winner_eq_after (d : AllData) (lln : List String) (cfg : MergeConfig)
    (h : countriesOf d ≠ [])
    (hg : ¬(2 ≤ (availableLL d lln (cfg.coord_priority.getD lln)).length ∧
      ((availableLL d lln (cfg.coord_priority.getD lln)).map fun e => e.2.country).dedup.length
        = 1)) :
    pick_winner d lln cfg = some (afterUnanimous (countriesOf d) ((countriesOf d).map (·.2))
      (coordSources d (cfg.coord_priority.getD lln)) cfg) := by
  rw [pick_winner]
  simp only [if_neg h, if_neg hg]

/-! ### Lemmas about `mostCommon` -/

theorem mem_foldl_firstOccs (l : List String) :
    ∀ (acc : List String) (x : String),
      x ∈ l.foldl (fun acc c => if c ∈ acc then acc else acc ++ [c]) acc ↔
        x ∈ acc ∨ x ∈ l := by
  induction l with
  | nil => intro acc x; simp
  | cons c l ih =>
    intro acc x
    rw [List.foldl_cons, ih]
    by_cases hc : c ∈ acc
    · rw [if_pos hc]
      constructor
      · rintro (h | h)
        · exact Or.inl h
        · exact Or.inr (by simp [h])
      · rintro (h | h)
        · exact Or.inl h
        · rcases List.mem_cons.mp h with rfl | h2
          · exact Or.inl hc
          · exact Or.inr h2
    · rw [if_neg hc]
      constructor
      · rintro (h | h)
        · rcases List.mem_append.mp h with h2 | h2
          · exact Or.inl h2
          · simp at h2
            exact Or.inr (by simp [h2])
        · exact Or.inr (by simp [h])
      · rintro (h | h)
        · exact Or.inl (by simp [h])
        · rcases List.mem_cons.mp h with rfl | h2
          · exact Or.inl (by simp)
          · exact Or.inr h2

theorem mem_firstOccs {l : List String} {x : String} : x ∈ firstOccs l ↔ x ∈ l := by
  rw [firstOccs, mem_foldl_firstOccs]
  simp

theorem mostCommon_perm (l : List String) :
    (mostCommon l).Perm ((firstOccs l).map fun c => (c, l.count c)) :=
  List.perm_insertionSort _ _

theorem mostCommon_count {l : List String} {p : String × ℕ} (hp : p ∈ mostCommon l) :
    p.1 ∈ l ∧ p.2 = l.count p.1 := by
  have := (mostCommon_perm l).mem_iff.mp hp
  obtain ⟨c, hc, hcp⟩ := List.mem_map.mp this
  obtain rfl : (c, l.count c) = p := hcp
  exact ⟨mem_firstOccs.mp hc, rfl⟩

theorem mem_mostCommon {l : List String} {x : String} (hx : x ∈ l) :
    (x, l.count x) ∈ mostCommon l :=
  (mostCommon_perm l).mem_iff.mpr (List.mem_map.mpr ⟨x, mem_firstOccs.mpr hx, rfl⟩)

theorem mostCommon_ne_nil {l : List String} (h : l ≠ []) : mostCommon l ≠ [] := by
  obtain ⟨y, rest, rfl⟩ : ∃ y rest, l = y :: rest := by
    cases l with
    | nil => exact absurd rfl h
    | cons y rest => exact ⟨y, rest, rfl⟩
  intro hc
  have := mem_mostCommon (l := y :: rest) (x := y) (by simp)
  rw [hc] at this
  cases this

instance : IsTotal (String × ℕ) fun a b => b.2 ≤ a.2 :=
  ⟨fun a b => le_total b.2 a.2⟩

instance : IsTrans (String × ℕ) fun a b => b.2 ≤ a.2 :=
  ⟨fun _ _ _ h1 h2 => le_trans h2 h1⟩

theorem mostCommon_sorted (l : List String) :
    (mostCommon l).Sorted fun a b => b.2 ≤ a.2 :=
  List.sorted_insertionSort _ _

theorem mostCommon_head_max {l : List String} (h : l ≠ []) (x : String) (hx : x ∈ l) :
    l.count x ≤ l.count ((mostCommon l).headD ("", 0)).1 := by
  obtain ⟨hd, tl, hmc⟩ : ∃ hd tl, mostCommon l = hd :: tl := by
    cases hmc : mostCommon l with
    | nil => exact absurd hmc (mostCommon_ne_nil h)
    | cons hd tl => exact ⟨hd, tl, rfl⟩
  rw [hmc, List.headD_cons]
  have hsorted := mostCommon_sorted l
  rw [hmc, List.sorted_cons] at hsorted
  have hmem := mem_mostCommon hx
  rw [hmc] at hmem
  have hhd : hd.2 = l.count hd.1 := by
    have : hd ∈ mostCommon l := by rw [hmc]; exact List.mem_cons_self hd tl
    exact (mostCommon_count this).2
  rcases List.mem_cons.mp hmem with heq | htl
  · have h1 : hd.1 = x := by rw [← heq]
    rw [h1]
  · have h2 := hsorted.1 _ htl
    rw [hhd] at h2
    exact h2

/-! ### Claim C2: determinism and tie-break ordering -/

/-- Counterexample to claim C2 as stated: when `coord_priority` is absent
from the configuration, the code defaults it to `list(latlong_names)`,
the iteration order of a Python `set` of strings, which varies between
runs under hash randomization.  The two lists below are two enumerations
of the same `latlong_names` set `{A, B}`, with identical configuration
and identical loaded observations, and yield different outputs. -/
theorem pick_winner_set_order_counterexample :
    pick_winner [("A", some (Obs.withCoords "US" 1 1)), ("B", some (Obs.withCoords "US" 2 2))]
        ["A", "B"] ⟨none, none, none, none⟩ ≠
      pick_winner [("A", some (Obs.withCoords "US" 1 1)), ("B", some (Obs.withCoords "US" 2 2))]
        ["B", "A"] ⟨none, none, none, none⟩ := by
  decide

/-- Claim C2 amended: with `coord_priority` present in the configuration,
the resolver is a pure function of the configuration and the observations
and is invariant under the enumeration order of the `latlong_names` set,
so identical configuration and inputs yield identical output; every
tie-break reads only the ordered lists of the model (`coord_priority`,
`vote_priority`, `overrides`, and the configured source order of
`all_data`). -/
theorem pick_winner_enum_invariant (d : AllData) (lln1 lln2 : List String)
    (cfg : MergeConfig) (cp : List String) (hcp : cfg.coord_priority = some cp)
    (hmem : ∀ s, lln1.contains s = lln2.contains s) :
    pick_winner d lln1 cfg = pick_winner d lln2 cfg := by
  have hav : ∀ cpl : List String, availableLL d lln1 cpl = availableLL d lln2 cpl := by
    intro cpl
    unfold availableLL
    induction cpl with
    | nil => rfl
    | cons n cpl ih => rw [List.filterMap_cons, List.filterMap_cons, ih, hmem n]
  simp only [pick_winner, hcp, Option.getD_some, hav cp]

/-- Witness for the amended claim C2 at concrete enumerations of the same
set. -/
theorem pick_winner_enum_invariant_witness :
    ((⟨some ["A"], none, none, none⟩ : MergeConfig).coord_priority = some ["A"] ∧
      (∀ s : String, (["A", "B"] : List String).contains s =
        (["B", "A"] : List String).contains s)) ∧
    pick_winner [("A", some (Obs.withCoords "US" 1 1)), ("B", some (Obs.withCoords "US" 2 2))]
        ["A", "B"] ⟨some ["A"], none, none, none⟩ =
      pick_winner [("A", some (Obs.withCoords "US" 1 1)), ("B", some (Obs.withCoords "US" 2 2))]
        ["B", "A"] ⟨some ["A"], none, none, none⟩ :=
  ⟨⟨rfl, fun s => by simp [List.contains_cons, Bool.or_comm]⟩,
    pick_winner_enum_invariant _ _ _ _ ["A"] rfl
      (fun s => by simp [List.contains_cons, Bool.or_comm])⟩

/-! ### Claim C3: unanimous coordinate agreement -/

/-- Counterexample to claim C3 as stated: three `latlong`-role sources
are present and unanimously report `US`, yet because the configured
`coord_priority` lists only source `A`, the code's `available_ll`
contains a single entry, the unanimous branch does not fire, and the
decision is labelled `vote->A`, not `unanimous->...` as the claim
requires for every input whose present latlong sources all agree. -/
theorem pick_winner_unanimous_counterexample :
    pick_winner [("A", some (Obs.withCoords "US" 1 1)), ("B", some (Obs.withCoords "US" 2 2)),
        ("C", some (Obs.withCoords "US" 3 3))] ["A", "B", "C"] ⟨some ["A"], none, none, none⟩ =
      some ("US", 1, 1, "vote->A") ∧
    ∀ s : String, "vote->A" ≠ "unanimous->" ++ s := by
  constructor
  · rfl
  · intro s h
    have hl := congrArg String.length h
    rw [String.length_append] at hl
    have h7 : "vote->A".length = 7 := rfl
    have h11 : "unanimous->".length = 11 := rfl
    omega

theorem dedup_all_eq : ∀ (l : List String) (c : String), l ≠ [] → (∀ x ∈ l, x = c) →
    l.dedup = [c] := by
  intro l
  induction l with
  | nil => intro c h; exact absurd rfl h
  | cons a rest ih =>
    intro c _ hall
    have ha : a = c := hall a (by simp)
    have hrest : ∀ x ∈ rest, x = c := fun x hx => hall x (by simp [hx])
    by_cases hrnil : rest = []
    · subst hrnil
      simp [ha]
    · have hmem : a ∈ rest := by
        obtain ⟨b, rest2, hbr⟩ : ∃ b rest2, rest = b :: rest2 := by
          cases rest with
          | nil => exact absurd rfl hrnil
          | cons b rest2 => exact ⟨b, rest2, rfl⟩
        have hb : b = c := hrest b (by rw [hbr]; simp)
        rw [hbr, ha, ← hb]
        exact List.mem_cons_self b rest2
      rw [List.dedup_cons_of_mem hmem]
      exact ih c hrnil hrest

/-- Claim C3 amended: when at least two `latlong`-role sources *listed in
the effective `coord_priority`* have a present observation and all of
those report the same country, the resolver returns that country with
the coordinates and source chosen by `pick_center_coords` over exactly
that list, labelled `unanimous-><chosen source>`, before overrides or
votes are consulted.  (Present latlong sources missing from
`coord_priority` are ignored by this stage.) -/
theorem pick_winner_unanimous_amended (d : AllData) (lln : List String) (cfg : MergeConfig)
    (c : String)
    (hlen : 2 ≤ (availableLL d lln (cfg.coord_priority.getD lln)).length)
    (hagree : ∀ e ∈ availableLL d lln (cfg.coord_priority.getD lln), e.2.country = c) :
    pick_winner d lln cfg = some (c,
      (pick_center_coords (availableLL d lln (cfg.coord_priority.getD lln))
        (cfg.coord_spread_threshold.getD 2)).1,
      (pick_center_coords (availableLL d lln (cfg.coord_priority.getD lln))
        (cfg.coord_spread_threshold.getD 2)).2.1,
      "unanimous->" ++
        (pick_center_coords (availableLL d lln (cfg.coord_priority.getD lln))
          (cfg.coord_spread_threshold.getD 2)).2.2) := by
  obtain ⟨e, rest, hav⟩ : ∃ e rest,
      availableLL d lln (cfg.coord_priority.getD lln) = e :: rest := by
    cases hav : availableLL d lln (cfg.coord_priority.getD lln) with
    | nil => rw [hav] at hlen; simp at hlen
    | cons e rest => exact ⟨e, rest, rfl⟩
  have hcountries : countriesOf d ≠ [] := by
    have he := mem_availableLL (hav ▸ List.mem_cons_self e rest)
    have := countriesOf_mem_of_lookup he.2.2.1
    intro hc
    rw [hc] at this
    cases this
  have hmapne : (availableLL d lln (cfg.coord_priority.getD lln)).map

      (fun e => e.2.country) ≠ [] := by
    rw [hav]
    simp
  have hmapall : ∀ x ∈ (availableLL d lln (cfg.coord_priority.getD lln)).map
      (fun e => e.2.country), x = c := by
    intro x hx
    obtain ⟨e2, he2, hxe⟩ := List.mem_map.mp hx
    exact hxe ▸ hagree e2 he2
  have hdedup := dedup_all_eq _ c hmapne hmapall
  have hres := pick_winner_eq_unanimous d lln cfg hcountries
    ⟨hlen, by rw [hdedup]; rfl⟩
  rw [hres]
  have hhead : ((availableLL d lln (cfg.coord_priority.getD lln)).map
      (fun e => e.2.country)).headD "" = c := by
    rw [hav, List.map_cons, List.headD_cons]
    exact hagree e (hav ▸ List.mem_cons_self e rest)
  rw [hhead]

/-- Witness for the amended claim C3 at two concrete agreeing sources. -/
theorem pick_winner_unanimous_amended_witness :
    ((2 : ℕ) ≤ (availableLL
        [("A", some (Obs.withCoords "US" 1 1)), ("B", some (Obs.withCoords "US" 2 2))]
        ["A", "B"]
        ((⟨none, none, none, none⟩ : MergeConfig).coord_priority.getD ["A", "B"])).length ∧
      (∀ e ∈ availableLL
        [("A", some (Obs.withCoords "US" 1 1)), ("B", some (Obs.withCoords "US" 2 2))]
        ["A", "B"]
        ((⟨none, none, none, none⟩ : MergeConfig).coord_priority.getD ["A", "B"]),
        e.2.country = "US")) ∧
    pick_winner [("A", some (Obs.withCoords "US" 1 1)), ("B", some (Obs.withCoords "US" 2 2))]
        ["A", "B"] ⟨none, none, none, none⟩ = some ("US",
      (pick_center_coords (availableLL
        [("A", some (Obs.withCoords "US" 1 1)), ("B", some (Obs.withCoords "US" 2 2))]
        ["A", "B"]
        ((⟨none, none, none, none⟩ : MergeConfig).coord_priority.getD ["A", "B"]))
        ((⟨none, none, none, none⟩ : MergeConfig).coord_spread_threshold.getD 2)).1,
      (pick_center_coords (availableLL
        [("A", some (Obs.withCoords "US" 1 1)), ("B", some (Obs.withCoords "US" 2 2))]
        ["A", "B"]
        ((⟨none, none, none, none⟩ : MergeConfig).coord_priority.getD ["A", "B"]))
        ((⟨none, none, none, none⟩ : MergeConfig).coord_spread_threshold.getD 2)).2.1,
      "unanimous->" ++
        (pick_center_coords (availableLL
          [("A", some (Obs.withCoords "US" 1 1)), ("B", some (Obs.withCoords "US" 2 2))]
          ["A", "B"]
          ((⟨none, none, none, none⟩ : MergeConfig).coord_priority.getD ["A", "B"]))
          ((⟨none, none, none, none⟩ : MergeConfig).coord_spread_threshold.getD 2)).2.2) :=
  ⟨⟨by decide, by decide⟩,
    pick_winner_unanimous_amended _ _ _ "US" (by decide) (by decide)⟩

/-! ### Claim C4: override rules -/

theorem afterUnanimous_override {countries : List (String × String)} {acl : List String}
    {cs : List (String × ℚ × ℚ × String)} {cfg : MergeConfig} {res : PWResult}
    (h : runOverrides countries cs (cfg.overrides.getD []) = some res) :
    afterUnanimous countries acl cs cfg = res := by
  unfold afterUnanimous
  rw [h]

theorem afterUnanimous_vote {countries : List (String × String)} {acl : List String}
    {cs : List (String × ℚ × ℚ × String)} {cfg : MergeConfig}
    (h : runOverrides countries cs (cfg.overrides.getD []) = none) :
    afterUnanimous countries acl cs cfg =
      voteStage countries acl cs (cfg.vote_priority.getD []) := by
  unfold afterUnanimous
  rw [h]

/-- Counterexample to claim C4 as stated: the override rule `{X, Y}`
fires (both present, both report `JP`), but no coordinate source reports
`JP`, so the code falls through to voting and decides `US` — the firing
rule does not force the country decision. -/
theorem pick_winner_override_counterexample :
    matchCountries (countriesOf [("X", some (Obs.countryOnly "JP")),
        ("Y", some (Obs.countryOnly "JP")), ("L", some (Obs.withCoords "US" 1 2))])
      ["X", "Y"] = some ["JP", "JP"] ∧
    (["JP", "JP"] : List String).dedup.length = 1 ∧
    pick_winner [("X", some (Obs.countryOnly "JP")), ("Y", some (Obs.countryOnly "JP")),
        ("L", some (Obs.withCoords "US" 1 2))] ["L"]
      ⟨some ["L"], none, none, some [["X", "Y"]]⟩ = some ("US", 1, 2, "vote->L") ∧
    ("US" : String) ≠ "JP" :=
  ⟨rfl, by decide, rfl, by decide⟩

/-- Claim C4 amended: override rules are walked in configured order; a
rule applies when every listed source is present, all report the same
country, *and* a coordinate source reporting that exact country exists;
the first applicable rule yields that country with the first matching
`coord_priority` coordinates, label `<rule sources>-><coord source>`;
rules that do not fully match — or that match but have no discoverable
coordinates — are skipped. -/
theorem pick_winner_override_amended (d : AllData) (lln : List String) (cfg : MergeConfig)
    (pre post : List (List String)) (r : List String) (mcs : List String)
    (la lo : ℚ) (src : String)
    (hrules : cfg.overrides.getD [] = pre ++ r :: post)
    (hg : ¬(2 ≤ (availableLL d lln (cfg.coord_priority.getD lln)).length ∧
      ((availableLL d lln (cfg.coord_priority.getD lln)).map fun e => e.2.country).dedup.length
        = 1))
    (hpre : ∀ r2 ∈ pre,
      overrideStep (countriesOf d) (coordSources d (cfg.coord_priority.getD lln)) r2 = none)
    (hmatch : matchCountries (countriesOf d) r = some mcs)
    (hone : mcs.dedup.length = 1)
    (hfind : findCoords (coordSources d (cfg.coord_priority.getD lln)) (mcs.headD "") =
      some (la, lo, src)) :
    pick_winner d lln cfg = some (mcs.headD "", la, lo,
      String.intercalate "+" r ++ "->" ++ src) := by
  have hcne : countriesOf d ≠ [] := by
    have hmcsne : mcs ≠ [] := by
      intro hnil
      rw [hnil] at hone
      cases hone
    obtain ⟨n, r2, hr⟩ : ∃ n r2, r = n :: r2 := by
      cases r with
      | nil =>
        rw [matchCountries] at hmatch
        obtain rfl : ([] : List String) = mcs := by injection hmatch
        exact absurd rfl hmcsne
      | cons n r2 => exact ⟨n, r2, rfl⟩
    intro hc
    rw [hr, matchCountries, hc] at hmatch
    cases hg2 : dictGet ([] : List (String × String)) n with
    | none => rw [hg2] at hmatch; cases hmatch
    | some v => cases hg2
  rw [pick_winner_eq_after d lln cfg hcne hg]
  have hstep : overrideStep (countriesOf d) (coordSources d (cfg.coord_priority.getD lln)) r =
      some (mcs.headD "", la, lo, String.intercalate "+" r ++ "->" ++ src) := by
    rw [overrideStep, hmatch]
    dsimp only
    rw [if_pos hone, hfind]
    rfl
  have hro : runOverrides (countriesOf d) (coordSources d (cfg.coord_priority.getD lln))
      (cfg.overrides.getD []) =
      some (mcs.headD "", la, lo, String.intercalate "+" r ++ "->" ++ src) := by
    rw [runOverrides, hrules, List.findSome?_append, List.findSome?_eq_none_iff.mpr hpre,
      Option.none_or, List.findSome?_cons, hstep]
  rw [afterUnanimous_override hro]

/-- Witness for the amended claim C4: the rule `{X, Y}` fires on `JP` and
a coordinate source for `JP` exists. -/
theorem pick_winner_override_amended_witness :
    ((⟨some ["L"], none, none, some [["X", "Y"]]⟩ : MergeConfig).overrides.getD [] =
        [] ++ ["X", "Y"] :: [] ∧
      ¬(2 ≤ (availableLL [("X", some (Obs.countryOnly "JP")), ("Y", some (Obs.countryOnly "JP")),
          ("L", some (Obs.withCoords "JP" 3 4))] ["L"]
          ((⟨some ["L"], none, none, some [["X", "Y"]]⟩ : MergeConfig).coord_priority.getD
            ["L"])).length ∧
        ((availableLL [("X", some (Obs.countryOnly "JP")), ("Y", some (Obs.countryOnly "JP")),
          ("L", some (Obs.withCoords "JP" 3 4))] ["L"]
          ((⟨some ["L"], none, none, some [["X", "Y"]]⟩ : MergeConfig).coord_priority.getD
            ["L"])).map fun e => e.2.country).dedup.length = 1) ∧
      (∀ r2 ∈ ([] : List (List String)),
        overrideStep (countriesOf [("X", some (Obs.countryOnly "JP")),
          ("Y", some (Obs.countryOnly "JP")), ("L", some (Obs.withCoords "JP" 3 4))])
          (coordSources [("X", some (Obs.countryOnly "JP")), ("Y", some (Obs.countryOnly "JP")),
            ("L", some (Obs.withCoords "JP" 3 4))]
            ((⟨some ["L"], none, none, some [["X", "Y"]]⟩ : MergeConfig).coord_priority.getD
              ["L"])) r2 = none) ∧
      matchCountries (countriesOf [("X", some (Obs.countryOnly "JP")),
        ("Y", some (Obs.countryOnly "JP")), ("L", some (Obs.withCoords "JP" 3 4))])
        ["X", "Y"] = some ["JP", "JP"] ∧
      (["JP", "JP"] : List String).dedup.length = 1 ∧
      findCoords (coordSources [("X", some (Obs.countryOnly "JP")),
        ("Y", some (Obs.countryOnly "JP")), ("L", some (Obs.withCoords "JP" 3 4))]
        ((⟨some ["L"], none, none, some [["X", "Y"]]⟩ : MergeConfig).coord_priority.getD
          ["L"])) ((["JP", "JP"] : List String).headD "") = some (3, 4, "L")) ∧
    pick_winner [("X", some (Obs.countryOnly "JP")), ("Y", some (Obs.countryOnly "JP")),
        ("L", some (Obs.withCoords "JP" 3 4))] ["L"]
      ⟨some ["L"], none, none, some [["X", "Y"]]⟩ =
      some ((["JP", "JP"] : List String).headD "", 3, 4,
        String.intercalate "+" ["X", "Y"] ++ "->" ++ "L") :=
  ⟨⟨rfl, by decide, by simp, rfl, by decide, rfl⟩,
    pick_winner_override_amended _ _ _ [] [] ["X", "Y"] ["JP", "JP"] 3 4 "L"
      rfl (by decide) (by simp) rfl (by decide) rfl⟩

/-! ### Claim C5: vote tie-break -/

/-- Claim C5: when the resolver reaches the voting stage (no unanimous
agreement, no override decided, some coordinate source present) and the
two highest vote counts are equal, the first `vote_priority` source that
is present, reports a tied country, and has discoverable coordinates for
it determines the result, labelled `vote-><coord source>`. -/
theorem pick_winner_tiebreak (d : AllData) (lln : List String) (cfg : MergeConfig)
    (pre post : List String) (pn c : String) (la lo : ℚ) (src : String)
    (hg : ¬(2 ≤ (availableLL d lln (cfg.coord_priority.getD lln)).length ∧
      ((availableLL d lln (cfg.coord_priority.getD lln)).map fun e => e.2.country).dedup.length
        = 1))
    (hov : runOverrides (countriesOf d) (coordSources d (cfg.coord_priority.getD lln))
      (cfg.overrides.getD []) = none)
    (hcs : coordSources d (cfg.coord_priority.getD lln) ≠ [])
    (hvp : cfg.vote_priority.getD [] = pre ++ pn :: post)
    (hlen2 : 2 ≤ (mostCommon ((countriesOf d).map (·.2))).length)
    (htie : ((mostCommon ((countriesOf d).map (·.2))).headD ("", 0)).2 =
      ((mostCommon ((countriesOf d).map (·.2))).getD 1 ("", 0)).2)
    (hpre : ∀ q ∈ pre, tieStep (countriesOf d)
      (coordSources d (cfg.coord_priority.getD lln))
      (mostCommon ((countriesOf d).map (·.2))) q = none)
    (hpn : dictGet (countriesOf d) pn = some c)
    (htied : (c, ((mostCommon ((countriesOf d).map (·.2))).headD ("", 0)).2) ∈
      mostCommon ((countriesOf d).map (·.2)))
    (hfind : findCoords (coordSources d (cfg.coord_priority.getD lln)) c =
      some (la, lo, src)) :
    pick_winner d lln cfg = some (c, la, lo, "vote->" ++ src) := by
  have hcne : countriesOf d ≠ [] := by
    intro hc
    rw [hc] at hpn
    cases hpn
  rw [pick_winner_eq_after d lln cfg hcne hg, afterUnanimous_vote hov]
  have hstep : tieStep (countriesOf d) (coordSources d (cfg.coord_priority.getD lln))
      (mostCommon ((countriesOf d).map (·.2))) pn = some (c, la, lo, "vote->" ++ src) := by
    rw [tieStep, hpn]
    dsimp only
    rw [if_pos htied, hfind]
    rfl
  have htb : tieBreak (cfg.vote_priority.getD []) (countriesOf d)
      (coordSources d (cfg.coord_priority.getD lln))
      (mostCommon ((countriesOf d).map (·.2))) = some (c, la, lo, "vote->" ++ src) := by
    rw [tieBreak, if_pos ⟨hlen2, htie⟩, hvp, List.findSome?_append,
      List.findSome?_eq_none_iff.mpr hpre, Option.none_or, List.findSome?_cons, hstep]
  rw [voteStage, if_neg hcs]
  simp only [htb]

/-- Witness for claim C5: votes tie `DE`/`FR` at 2-2; `vote_priority`
lists the `DE`-reporting source `Z`, and source `L1` provides the `DE`
coordinates. -/
theorem pick_winner_tiebreak_witness :
    (¬(2 ≤ (availableLL [("L1", some (Obs.withCoords "DE" 1 1)),
          ("X", some (Obs.countryOnly "FR")), ("Y", some (Obs.countryOnly "FR")),
          ("Z", some (Obs.countryOnly "DE"))] ["L1"]
          ((⟨some ["L1"], some ["Z"], none, none⟩ : MergeConfig).coord_priority.getD
            ["L1"])).length ∧
        ((availableLL [("L1", some (Obs.withCoords "DE" 1 1)),
          ("X", some (Obs.countryOnly "FR")), ("Y", some (Obs.countryOnly "FR")),
          ("Z", some (Obs.countryOnly "DE"))] ["L1"]
          ((⟨some ["L1"], some ["Z"], none, none⟩ : MergeConfig).coord_priority.getD
            ["L1"])).map fun e => e.2.country).dedup.length = 1) ∧
      runOverrides (countriesOf [("L1", some (Obs.withCoords "DE" 1 1)),
          ("X", some (Obs.countryOnly "FR")), ("Y", some (Obs.countryOnly "FR")),
          ("Z", some (Obs.countryOnly "DE"))])
        (coordSources [("L1", some (Obs.withCoords "DE" 1 1)),
          ("X", some (Obs.countryOnly "FR")), ("Y", some (Obs.countryOnly "FR")),
          ("Z", some (Obs.countryOnly "DE"))]
          ((⟨some ["L1"], some ["Z"], none, none⟩ : MergeConfig).coord_priority.getD ["L1"]))
        ((⟨some ["L1"], some ["Z"], none, none⟩ : MergeConfig).overrides.getD []) = none) ∧
    pick_winner [("L1", some (Obs.withCoords "DE" 1 1)), ("X", some (Obs.countryOnly "FR")),
        ("Y", some (Obs.countryOnly "FR")), ("Z", some (Obs.countryOnly "DE"))] ["L1"]
      ⟨some ["L1"], some ["Z"], none, none⟩ = some ("DE", 1, 1, "vote->" ++ "L1") :=
  ⟨⟨by decide, rfl⟩,
    pick_winner_tiebreak _ _ _ [] [] "Z" "DE" 1 1 "L1"
      (by decide) rfl (by decide) rfl (by decide) (by decide) (by simp) rfl
      (by decide) rfl⟩

/-! ### Claim C7: no coordinate source present -/

theorem availableLL_nil_of_absent {d : AllData} {lln : List String} (cp : List String)
    (h : ∀ p ∈ d, lln.contains p.1 = true → p.2 = none) : availableLL d lln cp = [] := by
  cases hav : availableLL d lln cp with
  | nil => rfl
  | cons e rest =>
    exfalso
    have hm := mem_availableLL (hav ▸ List.mem_cons_self e rest)
    have hmem := lookupData_mem hm.2.2.1
    have := h _ hmem hm.2.1
    cases this

theorem coordSources_nil_of_absent {d : AllData} {lln : List String} (cp : List String)
    (hwt : WellTyped d lln)
    (h : ∀ p ∈ d, lln.contains p.1 = true → p.2 = none) : coordSources d cp = [] := by
  cases hcs : coordSources d cp with
  | nil => rfl
  | cons e rest =>
    exfalso
    have hm := mem_coordSources (hcs ▸ List.mem_cons_self e rest)
    have hmem := lookupData_mem hm.2
    have hcontains := hwt _ hmem _ rfl
    have := h _ hmem (by rw [← hcontains]; rfl)
    cases this

theorem overrideStep_cs_nil (countries : List (String × String)) (rule : List String) :
    overrideStep countries [] rule = none := by
  rw [overrideStep]
  cases matchCountries countries rule with
  | none => rfl
  | some mcs =>
    dsimp only
    split
    · rfl
    · rfl

theorem runOverrides_cs_nil (countries : List (String × String)) (rules : List (List String)) :
    runOverrides countries [] rules = none :=
  List.findSome?_eq_none_iff.mpr fun r _ => overrideStep_cs_nil countries r

/-- Claim C7: with at least one present observation but no `latlong`-role
source having any observation (tables well-typed for their roles), the
resolver returns the top-voted country with placeholder coordinates
`(0, 0)` and label `no_coords`; the returned country's vote count is
maximal. -/
theorem pick_winner_no_coords (d : AllData) (lln : List String) (cfg : MergeConfig)
    (hwt : WellTyped d lln) (hpresent : countriesOf d ≠ [])
    (habs : ∀ p ∈ d, lln.contains p.1 = true → p.2 = none) :
    pick_winner d lln cfg =
      some (((mostCommon ((countriesOf d).map (·.2))).headD ("", 0)).1, 0, 0, "no_coords") ∧
    ∀ x ∈ (countriesOf d).map (·.2),
      ((countriesOf d).map (·.2)).count x ≤
        ((countriesOf d).map (·.2)).count
          ((mostCommon ((countriesOf d).map (·.2))).headD ("", 0)).1 := by
  have hav := availableLL_nil_of_absent (cfg.coord_priority.getD lln) habs
  have hcs := coordSources_nil_of_absent (cfg.coord_priority.getD lln) hwt habs
  have hg : ¬(2 ≤ (availableLL d lln (cfg.coord_priority.getD lln)).length ∧
      ((availableLL d lln (cfg.coord_priority.getD lln)).map fun e => e.2.country).dedup.length
        = 1) := by
    rw [hav]
    simp
  constructor
  · have hro : runOverrides (countriesOf d) (coordSources d (cfg.coord_priority.getD lln))
        (cfg.overrides.getD []) = none := by
      rw [hcs]
      exact runOverrides_cs_nil _ _
    rw [pick_winner_eq_after d lln cfg hpresent hg, afterUnanimous_vote hro, voteStage,
      if_pos hcs]
  · intro x hx
    have hne : (countriesOf d).map (·.2) ≠ [] := by
      intro hnil
      exact hpresent (List.map_eq_nil_iff.mp hnil)
    exact mostCommon_head_max hne x hx

/-- Witness for claim C7 at a single country-only source. -/
theorem pick_winner_no_coords_witness :
    (WellTyped [("X", some (Obs.countryOnly "US"))] [] ∧
      countriesOf [("X", some (Obs.countryOnly "US"))] ≠ [] ∧
      (∀ p ∈ ([("X", some (Obs.countryOnly "US"))] : AllData),
        ([] : List String).contains p.1 = true → p.2 = none)) ∧
    (pick_winner [("X", some (Obs.countryOnly "US"))] [] ⟨none, none, none, none⟩ =
      some (((mostCommon ((countriesOf [("X", some (Obs.countryOnly "US"))]).map
        (·.2))).headD ("", 0)).1, 0, 0, "no_coords") ∧
    ∀ x ∈ (countriesOf [("X", some (Obs.countryOnly "US"))]).map (·.2),
      ((countriesOf [("X", some (Obs.countryOnly "US"))]).map (·.2)).count x ≤
        ((countriesOf [("X", some (Obs.countryOnly "US"))]).map (·.2)).count
          ((mostCommon ((countriesOf [("X", some (Obs.countryOnly "US"))]).map
            (·.2))).headD ("", 0)).1) :=
  ⟨⟨by simp [WellTyped, Obs.isTuple], by decide, by decide⟩,
    pick_winner_no_coords _ _ _ (by simp [WellTyped, Obs.isTuple]) (by decide) (by decide)⟩

/-! ### Claim C9: totality and the dead `no_match` branch -/

theorem vote_label_ne (s : String) : "vote->" ++ s ≠ "no_match" := by
  intro h
  have h2 := congrArg String.data h
  rw [String.data_append] at h2
  simp at h2

theorem unanimous_label_ne (s : String) : "unanimous->" ++ s ≠ "no_match" := by
  intro h
  have h2 := congrArg String.data h
  rw [String.data_append] at h2
  simp at h2

theorem arrow_label_ne (a b : String) : a ++ "->" ++ b ≠ "no_match" := by
  intro h
  have hmem : '-' ∈ (a ++ "->" ++ b).data := by
    rw [String.data_append, String.data_append]
    exact List.mem_append.mpr (Or.inl (List.mem_append.mpr (Or.inr (by decide))))
  rw [h] at hmem
  exact absurd hmem (by decide)

theorem findSome?_some_mem {α β : Type} {f : α → Option β} {l : List α} {res : β}
    (h : l.findSome? f = some res) : ∃ x ∈ l, f x = some res := by
  induction l with
  | nil => cases h
  | cons a l ih =>
    rw [List.findSome?_cons] at h
    cases hfa : f a with
    | some b =>
      rw [hfa] at h
      obtain rfl : b = res := by injection h
      exact ⟨a, by simp, hfa⟩
    | none =>
      rw [hfa] at h
      obtain ⟨x, hx, hfx⟩ := ih h
      exact ⟨x, by simp [hx], hfx⟩

theorem overrideStep_label {countries : List (String × String)}
    {cs : List (String × ℚ × ℚ × String)} {rule : List String} {res : PWResult}
    (h : overrideStep countries cs rule = some res) : ∃ a b, res.2.2.2 = a ++ "->" ++ b := by
  rw [overrideStep] at h
  cases hmc : matchCountries countries rule with
  | none => rw [hmc] at h; cases h
  | some mcs =>
    rw [hmc] at h
    dsimp only at h
    split at h
    · cases hfc : findCoords cs (mcs.headD "") with
      | none => rw [hfc] at h; cases h
      | some r0 =>
        rw [hfc] at h
        obtain rfl : (mcs.headD "", r0.1, r0.2.1,
            String.intercalate "+" rule ++ "->" ++ r0.2.2) = res := by injection h
        exact ⟨String.intercalate "+" rule, r0.2.2, rfl⟩
    · cases h

theorem runOverrides_label {countries : List (String × String)}
    {cs : List (String × ℚ × ℚ × String)} {rules : List (List String)} {res : PWResult}
    (h : runOverrides countries cs rules = some res) : ∃ a b, res.2.2.2 = a ++ "->" ++ b := by
  obtain ⟨r, _, hr⟩ := findSome?_some_mem h
  exact overrideStep_label hr

theorem tieStep_label {countries : List (String × String)}
    {cs : List (String × ℚ × ℚ × String)} {top : List (String × ℕ)} {q : String}
    {res : PWResult} (h : tieStep countries cs top q = some res) :
    ∃ s, res.2.2.2 = "vote->" ++ s := by
  rw [tieStep] at h
  cases hdg : dictGet countries q with
  | none => rw [hdg] at h; cases h
  | some c =>
    rw [hdg] at h
    dsimp only at h
    split at h
    · cases hfc : findCoords cs c with
      | none => rw [hfc] at h; cases h
      | some r0 =>
        rw [hfc] at h
        obtain rfl : (c, r0.1, r0.2.1, "vote->" ++ r0.2.2) = res := by injection h
        exact ⟨r0.2.2, rfl⟩
    · cases h

theorem tieBreak_label {vp : List String} {countries : List (String × String)}
    {cs : List (String × ℚ × ℚ × String)} {top : List (String × ℕ)} {res : PWResult}
    (h : tieBreak vp countries cs top = some res) : ∃ s, res.2.2.2 = "vote->" ++ s := by
  rw [tieBreak] at h
  split at h
  · obtain ⟨q, _, hq⟩ := findSome?_some_mem h
    exact tieStep_label hq
  · cases h

theorem findCoords_head (e : String × ℚ × ℚ × String) (cs : List (String × ℚ × ℚ × String)) :
    findCoords (e :: cs) e.1 = some (e.2.1, e.2.2.1, e.2.2.2) := by
  rw [findCoords, List.findSome?_cons]
  simp

/-- Counterexample to claim C9 as stated: a single country-only source;
no voted country has any matching coordinate source (there are no
coordinate sources at all), yet the resolver's label is `no_coords`, not
`no_match`. -/
theorem pick_winner_no_match_counterexample :
    (∀ c : String, findCoords (coordSources [("X", some (Obs.countryOnly "US"))]
      ((⟨none, none, none, none⟩ : MergeConfig).coord_priority.getD [])) c = none) ∧
    pick_winner [("X", some (Obs.countryOnly "US"))] [] ⟨none, none, none, none⟩ =
      some ("US", 0, 0, "no_coords") ∧
    ("no_coords" : String) ≠ "no_match" :=
  ⟨fun _ => rfl, rfl, by decide⟩

/-- Claim C9 amended: `pick_winner` returns none exactly when every
source's observation is absent, and otherwise always returns a decision;
the `no_match` last resort is unreachable — whenever no voted country has
a matching coordinate source the coordinate-source list is empty and the
resolver already returned `no_coords` — so no returned decision ever
carries the label `no_match`. -/
theorem pick_winner_total_labels (d : AllData) (lln : List String) (cfg : MergeConfig) :
    (pick_winner d lln cfg = none ↔ countriesOf d = []) ∧
    ∀ res, pick_winner d lln cfg = some res → res.2.2.2 ≠ "no_match" := by
  by_cases hc : countriesOf d = []
  · rw [pick_winner_eq_none d lln cfg hc]
    exact ⟨⟨fun _ => hc, fun _ => rfl⟩, fun res hres => Option.noConfusion hres⟩
  · constructor
    · constructor
      · intro h
        by_cases hg : (2 ≤ (availableLL d lln (cfg.coord_priority.getD lln)).length ∧
            ((availableLL d lln (cfg.coord_priority.getD lln)).map
              fun e => e.2.country).dedup.length = 1)
        · rw [pick_winner_eq_unanimous d lln cfg hc hg] at h
          exact Option.noConfusion h
        · rw [pick_winner_eq_after d lln cfg hc hg] at h
          exact Option.noConfusion h
      · exact fun h => absurd h hc
    · intro res hres
      by_cases hg : (2 ≤ (availableLL d lln (cfg.coord_priority.getD lln)).length ∧
          ((availableLL d lln (cfg.coord_priority.getD lln)).map
            fun e => e.2.country).dedup.length = 1)
      · rw [pick_winner_eq_unanimous d lln cfg hc hg] at hres
        injection hres with h
        rw [← h]
        exact unanimous_label_ne _
      · rw [pick_winner_eq_after d lln cfg hc hg] at hres
        injection hres with h
        cases hro : runOverrides (countriesOf d)
            (coordSources d (cfg.coord_priority.getD lln)) (cfg.overrides.getD []) with
        | some r0 =>
          have hres0 : res = r0 := by rw [← h, afterUnanimous_override hro]
          obtain ⟨a, b, hab⟩ := runOverrides_label hro
          rw [hres0, hab]
          exact arrow_label_ne a b
        | none =>
          have hres0 : voteStage (countriesOf d) ((countriesOf d).map (·.2))
              (coordSources d (cfg.coord_priority.getD lln))
              (cfg.vote_priority.getD []) = res := by
            rw [← h, afterUnanimous_vote hro]
          by_cases hcs : coordSources d (cfg.coord_priority.getD lln) = []
          · rw [voteStage, if_pos hcs] at hres0
            rw [← hres0]
            show ("no_coords" : String) ≠ "no_match"
            decide
          · rw [voteStage, if_neg hcs] at hres0
            cases htb : tieBreak (cfg.vote_priority.getD []) (countriesOf d)
                (coordSources d (cfg.coord_priority.getD lln))
                (mostCommon ((countriesOf d).map (·.2))) with
            | some r1 =>
              simp only [htb] at hres0
              obtain ⟨s, hs⟩ := tieBreak_label htb
              rw [← hres0, hs]
              exact vote_label_ne s
            | none =>
              simp only [htb] at hres0
              cases hwalk : (mostCommon ((countriesOf d).map (·.2))).findSome?
                  (fun ce => (findCoords (coordSources d (cfg.coord_priority.getD lln))
                    ce.1).map fun r => (ce.1, r.1, r.2.1, "vote->" ++ r.2.2)) with
              | some r2 =>
                simp only [hwalk] at hres0
                obtain ⟨ce, _, hce⟩ := findSome?_some_mem hwalk
                cases hfc : findCoords (coordSources d (cfg.coord_priority.getD lln))
                    ce.1 with
                | none => rw [hfc] at hce; cases hce
                | some r3 =>
                  rw [hfc] at hce
                  obtain rfl : (ce.1, r3.1, r3.2.1, "vote->" ++ r3.2.2) = r2 := by
                    injection hce
                  rw [← hres0]
                  exact vote_label_ne _
              | none =>
                exfalso
                obtain ⟨e, cs2, hcseq⟩ : ∃ e cs2,
                    coordSources d (cfg.coord_priority.getD lln) = e :: cs2 := by
                  cases hx : coordSources d (cfg.coord_priority.getD lln) with
                  | nil => exact absurd hx hcs
                  | cons e cs2 => exact ⟨e, cs2, rfl⟩
                have hlook := mem_coordSources (hcseq ▸ List.mem_cons_self e cs2)
                have hcmem : (e.2.2.2, e.1) ∈ countriesOf d :=
                  countriesOf_mem_of_lookup hlook.2
                have hx : e.1 ∈ (countriesOf d).map (·.2) :=
                  List.mem_map.mpr ⟨(e.2.2.2, e.1), hcmem, rfl⟩
                have hmm := mem_mostCommon hx
                have hnone := List.findSome?_eq_none_iff.mp hwalk _ hmm
                have hfc : findCoords (coordSources d (cfg.coord_priority.getD lln)) e.1 =
                    some (e.2.1, e.2.2.1, e.2.2.2) := by
                  rw [hcseq]
                  exact findCoords_head e cs2
                rw [hfc] at hnone
                cases hnone

/-! ### Claim C10: the unguarded first-element read is unreachable -/

/-- Claim C10: `pick_center_coords` reads its first entry unguarded, so
its checked variant fails (`none`) exactly on the empty list; yet
`pick_winner` only ever invokes it behind the `2 ≤ length` guard, so the
checked resolver `pick_winner?` never crashes and agrees with the total
model everywhere. -/
theorem pick_winner_checked_total :
    (∀ t : ℚ, pick_center_coords? [] t = none) ∧
    ∀ (d : AllData) (lln : List String) (cfg : MergeConfig),
      pick_winner? d lln cfg = some (pick_winner d lln cfg) := by
  constructor
  · intro t
    rfl
  · intro d lln cfg
    by_cases hc : countriesOf d = []
    · simp [pick_winner?, pick_winner, hc]
    · by_cases hg : (2 ≤ (availableLL d lln (cfg.coord_priority.getD lln)).length ∧
          ((availableLL d lln (cfg.coord_priority.getD lln)).map
            fun e => e.2.country).dedup.length = 1)
      · obtain ⟨e, rest, hav⟩ : ∃ e rest,
            availableLL d lln (cfg.coord_priority.getD lln) = e :: rest := by
          cases hav : availableLL d lln (cfg.coord_priority.getD lln) with
          | nil => rw [hav] at hg; simp at hg
          | cons e rest => exact ⟨e, rest, rfl⟩
        rw [pick_winner_eq_unanimous d lln cfg hc hg, pick_winner?]
        simp only [if_neg hc, hav, pick_center_coords?]
        rw [hav] at hg
        rw [if_pos hg]
        rfl
      · rw [pick_winner_eq_after d lln cfg hc hg, pick_winner?]
        simp only [if_neg hc, if_neg hg]

end Geoip
